import Mathlib

/-!
Verification of the processing pipeline in EDA&Processing/processing.py.

Modelling conventions for the shallow embedding:

* A pandas DataFrame is a Table: a list of column names together with a list
  of rows, each row a list of cells.  A cell is an Option Val, with none
  standing for a missing value (NaN / NaT).  Real DataFrames are rectangular;
  the predicate wf states that invariant of the embedding.
* float64 observation values are modelled as rationals, datetime64 values as
  day numbers (Nat); a date string is modelled as the decimal numeral of its
  day number, so that pd.to_datetime corresponds to parsing the numeral.
* Functions of the script that mutate their argument are additionally
  modelled by a _call variant that returns the pair
  (returned table, argument object as the caller sees it after the call),
  following the aliasing of the python code statement by statement.
* Operations that can raise (KeyError, IndexError, parse and astype
  failures) return Except Unit; Except.error models an exception
  propagating out of the operation.
-/

set_option maxRecDepth 16000

namespace Processing

/-- A single cell value: a float (as a rational), a string, or a datetime
(as a day number). -/
inductive Val where
  | num (q : ℚ)
  | vstr (s : String)
  | date (d : ℕ)
deriving DecidableEq

/-- A DataFrame: column names plus rows of optional cell values
(none models NaN / NaT). -/
structure Table where
  cols : List String
  rows : List (List (Option Val))
deriving DecidableEq

/-- Rectangularity invariant of a real DataFrame: every row has exactly one
cell per column. -/
def wf (t : Table) : Prop := ∀ r ∈ t.rows, r.length = t.cols.length

instance (t : Table) : Decidable (wf t) :=
  inferInstanceAs (Decidable (∀ r ∈ t.rows, r.length = t.cols.length))

instance {ε α : Type} [DecidableEq ε] [DecidableEq α] : DecidableEq (Except ε α) :=
  fun a b =>
    match a, b with
    | .error e1, .error e2 =>
        if h : e1 = e2 then .isTrue (by rw [h])
        else .isFalse (fun hc => h (by cases hc; rfl))
    | .ok x, .ok y =>
        if h : x = y then .isTrue (by rw [h])
        else .isFalse (fun hc => h (by cases hc; rfl))
    | .error _, .ok _ => .isFalse (fun hc => Except.noConfusion hc)
    | .ok _, .error _ => .isFalse (fun hc => Except.noConfusion hc)

/-- Cell of a row at a column position (missing cells read as none). -/
def cellAt (r : List (Option Val)) (j : ℕ) : Option Val := r.getD j none

/-- Projection of a list of rows onto one column position. -/
def colProj (rows : List (List (Option Val))) (j : ℕ) : List (Option Val) :=
  rows.map (fun r => cellAt r j)

/-- First position satisfying a predicate. -/
def findIdxA (p : α → Bool) : List α → Option ℕ
  | [] => none
  | a :: as => if p a then some 0 else (findIdxA p as).map (· + 1)

/-- Position of a column label (first occurrence), none when the label is
absent (a lookup on an absent label raises KeyError in pandas). -/
def colIdx (t : Table) (c : String) : Option ℕ :=
  findIdxA (fun x => x == c) t.cols

/-- Map over a list together with the element position. -/
def mapWithIdx (f : ℕ → α → β) : ℕ → List α → List β
  | _, [] => []
  | i, a :: as => f i a :: mapWithIdx f (i + 1) as

/-- Effectful map over a list in the Except monad, stopping at the first
error (models a pandas column operation that raises on the first bad
element). -/
def mapE (f : α → Except Unit β) : List α → Except Unit (List β)
  | [] => .ok []
  | a :: as =>
      match f a with
      | .error e => .error e
      | .ok b =>
          match mapE f as with
          | .error e => .error e
          | .ok bs => .ok (b :: bs)

/-- Remove duplicates keeping the first occurrence, as
DataFrame.drop_duplicates does. -/
def dedupFirst [DecidableEq α] : List α → List α
  | [] => []
  | a :: as => a :: dedupFirst (as.filter (fun b => b ≠ a))
termination_by l => l.length
decreasing_by
  simpa using Nat.lt_succ_of_le (List.length_filter_le _ _)

/-- Insertion into a list sorted by a boolean relation. -/
def insertByB (le : α → α → Bool) (x : α) : List α → List α
  | [] => [x]
  | y :: ys => if le x y then x :: y :: ys else y :: insertByB le x ys

/-- Insertion sort by a boolean relation (used to model the key sorting that
groupby and an outer merge perform). -/
def sortByB (le : α → α → Bool) : List α → List α
  | [] => []
  | x :: xs => insertByB le x (sortByB le xs)

/-! ### Row Cleaner (clean_data, processing.py lines 56-72) -/

/-- df.dropna(): drop every row that contains a missing value. -/
def dropnaRows (t : Table) : Table :=
  ⟨t.cols, t.rows.filter (fun r => r.all (fun c => c.isSome))⟩

/-- df.drop_duplicates(): drop exact duplicate rows, keeping the first. -/
def dropDuplicates (t : Table) : Table :=
  ⟨t.cols, dedupFirst t.rows⟩

/-- df.dropna(axis=1): drop every column that contains a missing value. -/
def dropnaCols (t : Table) : Table :=
  let keep := (List.range t.cols.length).filter
    (fun j => t.rows.all (fun r => (cellAt r j).isSome))
  ⟨keep.map (fun j => t.cols.getD j ""),
   t.rows.map (fun r => keep.map (fun j => cellAt r j))⟩

/-- clean_data: row-level dropna, then drop_duplicates, then column-level
dropna; reset_index only renumbers the row index, which the model does not
carry. -/
def clean_data (t : Table) : Table :=
  dropnaCols (dropDuplicates (dropnaRows t))

/-! ### Zero Imputer (replace_zeros_with_mean, processing.py lines 74-91) -/

/-- A cell compatible with a numeric (float64) dtype: a number or NaN. -/
def isNumCell : Option Val → Bool
  | none => true
  | some (.num _) => true
  | _ => false

/-- Whether column j has numeric dtype, i.e. is selected by
select_dtypes(include=[np.number]): every cell is a number or NaN. -/
def numericCol (t : Table) (j : ℕ) : Bool :=
  t.rows.all (fun r => isNumCell (cellAt r j))

/-- The numeric values present in column j (NaN cells skipped). -/
def colNums (t : Table) (j : ℕ) : List ℚ :=
  t.rows.filterMap (fun r =>
    match cellAt r j with
    | some (.num q) => some q
    | _ => none)

/-- Mean of the values of column j excluding zeros, as computed by
df.loc[df[col] != 0, col].mean(); none (NaN) when no non-zero value
exists. -/
def nonZeroMean (t : Table) (j : ℕ) : Option ℚ :=
  let qs := (colNums t j).filter (fun q => q ≠ 0)
  if qs.isEmpty then none else some (qs.sum / qs.length)

/-- replace_zeros_with_mean, acting on the copy: in every numeric column,
each zero cell is replaced by the non-zero mean of that column (which is NaN
when the column has no non-zero value); all other cells are unchanged. -/
def replace_zeros_with_mean (t : Table) : Table :=
  ⟨t.cols,
   t.rows.map (fun r =>
     mapWithIdx (fun j v =>
       if numericCol t j && (v == some (.num 0))
       then Option.map Val.num (nonZeroMean t j)
       else v) 0 r)⟩

/-- Call-level model of replace_zeros_with_mean: line 85 rebinds the local
name to df.copy(), so every later in-place column assignment of the loop
targets the fresh copy; the pair is (returned table, argument object after
the call), and the second component is the untouched argument. -/
def replace_zeros_with_mean_call (t : Table) : Table × Table :=
  (replace_zeros_with_mean t, t)

/-! ### Date Normalizer (fill_missing_dates, processing.py lines 28-54) -/

/-- pd.to_datetime on one cell: NaN becomes NaT, datetimes pass through,
a date string parses to its day number (unparseable strings raise), and a
numeric value is read as an epoch offset when it is a nonnegative integer
(other numeric values are not representable as model datetimes and are
modelled as a parse failure). -/
def toDatetimeCell : Option Val → Except Unit (Option Val)
  | none => .ok none
  | some (.date d) => .ok (some (.date d))
  | some (.vstr s) =>
      match s.toNat? with
      | some d => .ok (some (.date d))
      | none => .error ()
  | some (.num q) =>
      if q.den = 1 ∧ 0 ≤ q.num then .ok (some (.date q.num.toNat)) else .error ()

/-- Column assignment df["Date"] = pd.to_datetime(df["Date"]) given the
position j of the Date column: parse every cell of that column, raising on
the first failure. -/
def parseDateColAt (j : ℕ) (t : Table) : Except Unit Table :=
  (mapE (fun r => (toDatetimeCell (cellAt r j)).map (fun c => r.set j c)) t.rows).map
    (fun rows => ⟨t.cols, rows⟩)

/-- The same assignment looked up by label, raising KeyError when the Date
column is absent. -/
def parseDateCol (t : Table) : Except Unit Table :=
  match colIdx t "Date" with
  | none => .error ()
  | some j => parseDateColAt j t

/-- The complete day sequence of pd.date_range(start, end), inclusive. -/
def dateRange (startDate endDate : ℕ) : List ℕ :=
  List.range' startDate (endDate + 1 - startDate)

/-- Number of calendar days in the inclusive range. -/
def dayCount (startDate endDate : ℕ) : ℕ := endDate + 1 - startDate

/-- full_dates.merge(df, on="Date", how="left") given the position j of the
Date column of df: one block per calendar day, holding the matching rows of
df (with the Date cell first and the remaining cells in column order), or a
single all-missing row when no row of df carries that day. -/
def leftMergeFullDates (startDate endDate : ℕ) (t : Table) (j : ℕ) : Table :=
  ⟨"Date" :: t.cols.eraseIdx j,
   ((dateRange startDate endDate).map (fun d =>
      let ms := t.rows.filter (fun r => cellAt r j == some (.date d))
      if ms.isEmpty then
        [some (.date d) :: List.replicate (t.cols.eraseIdx j).length none]
      else
        ms.map (fun r => some (.date d) :: r.eraseIdx j))).flatten⟩

/-- One forward-fill step: each missing cell of the row is taken from the
carry row. -/
def fillMissing : List (Option Val) → List (Option Val) → List (Option Val)
  | _, [] => []
  | [], v :: vs => v :: fillMissing [] vs
  | c :: cs, v :: vs => (if v.isSome then v else c) :: fillMissing cs vs

/-- One-dimensional forward fill of a single column, used to state what
ffill does to each column in isolation. -/
def ffill1 (c : Option Val) : List (Option Val) → List (Option Val)
  | [] => []
  | v :: vs =>
      (if v.isSome then v else c) :: ffill1 (if v.isSome then v else c) vs

/-- One-dimensional forward fill followed by backward fill, the per-column
effect of lines 51-52. -/
def afterFB (cs : List (Option Val)) : List (Option Val) :=
  (ffill1 none (ffill1 none cs).reverse).reverse

/-- df.ffill(): propagate the latest non-missing value of each column
downwards through the rows. -/
def ffillRows : List (Option Val) → List (List (Option Val)) → List (List (Option Val))
  | _, [] => []
  | carry, r :: rs =>
      let r2 := fillMissing carry r
      r2 :: ffillRows r2 rs

/-- df.ffill(inplace=True) at the table level. -/
def ffillT (t : Table) : Table := ⟨t.cols, ffillRows [] t.rows⟩

/-- df.bfill(inplace=True): a forward fill run over the reversed rows. -/
def bfillT (t : Table) : Table := ⟨t.cols, (ffillRows [] t.rows.reverse).reverse⟩

/-- Call-level model of fill_missing_dates: line 42 assigns the parsed Date
column in place on the caller object; line 48 rebinds the local name to the
fresh merge result, so the in-place ffill and bfill of lines 51-52 only
touch the new object.  The pair is (returned table, argument object after
the call). -/
def fill_missing_dates_call (df : Table) (startDate endDate : ℕ) :
    Except Unit (Table × Table) :=
  match colIdx df "Date" with
  | none => .error ()
  | some j =>
      match parseDateColAt j df with
      | .error e => .error e
      | .ok dfP =>
          .ok (bfillT (ffillT (leftMergeFullDates startDate endDate dfP j)), dfP)

/-- fill_missing_dates: value returned to the caller. -/
def fill_missing_dates (df : Table) (startDate endDate : ℕ) : Except Unit Table :=
  (fill_missing_dates_call df startDate endDate).map Prod.fst

/-- The parsed date values the merge of fill_missing_dates keys on: the
non-missing cells of the Date column after pd.to_datetime (empty when the
lookup or the parse fails). -/
def parsedDates (df : Table) : List Val :=
  match colIdx df "Date" with
  | none => []
  | some j =>
      match parseDateColAt j df with
      | .ok t => (colProj t.rows j).filterMap id
      | .error _ => []

/-! ### Global Commodity Loader (get_global_commodity_data, lines 93-132) -/

/-- Plain decimal digit run to a number; none when a non-digit occurs. -/
def digitsToNat : ℕ → List Char → Option ℕ
  | acc, [] => some acc
  | acc, c :: cs =>
      if c.isDigit then digitsToNat (acc * 10 + (c.toNat - 48)) cs else none

/-- Split a character list at the first dot: (integer part, fractional part
when a dot is present). -/
def splitDot : List Char → List Char × Option (List Char)
  | [] => ([], none)
  | '.' :: rest => ([], some rest)
  | c :: rest =>
      let p := splitDot rest
      (c :: p.1, p.2)

/-- float(s) on a plain decimal numeral with optional sign and decimal
point; none models a ValueError (scientific notation and surrounding
whitespace, which python would also accept, are outside the model). -/
def parseFloat? (s : String) : Option ℚ :=
  let p : ℚ × List Char :=
    match s.data with
    | '-' :: rest => (-1, rest)
    | '+' :: rest => (1, rest)
    | l => (1, l)
  match splitDot p.2 with
  | (ip, none) =>
      if ip.isEmpty then none
      else (digitsToNat 0 ip).map (fun n => p.1 * n)
  | (ip, some fp) =>
      if ip.isEmpty && fp.isEmpty then none
      else do
        let n ← digitsToNat 0 ip
        let f ← digitsToNat 0 fp
        pure (p.1 * ((n : ℚ) + (f : ℚ) / (10 : ℚ) ^ fp.length))

/-- One cell of line 113, df["Vol."].str.replace("K", "").astype(float) * 1000:
strip every K, parse as float, scale by 1000.  NaN stays NaN; a non-string
cell is turned into NaN by the .str accessor (at the element level; a fully
numeric column would make the .str accessor itself raise, a column-dtype
condition outside the cell-level model); an unparseable string makes
astype(float) raise. -/
def transformVolCell : Option Val → Except Unit (Option Val)
  | none => .ok none
  | some (.vstr s) =>
      match parseFloat? (s.replace "K" "") with
      | some q => .ok (some (.num (q * 1000)))
      | none => .error ()
  | some _ => .ok none

/-- One cell of line 114, df["Change %"].str.replace("%", "").astype(float). -/
def transformPctCell : Option Val → Except Unit (Option Val)
  | none => .ok none
  | some (.vstr s) =>
      match parseFloat? (s.replace "%" "") with
      | some q => .ok (some (.num q))
      | none => .error ()
  | some _ => .ok none

/-- Rewrite one column through an Except-valued cell function. -/
def mapColE (t : Table) (j : ℕ) (f : Option Val → Except Unit (Option Val)) :
    Except Unit Table :=
  (mapE (fun r => (f (cellAt r j)).map (fun c => r.set j c)) t.rows).map
    (fun rows => ⟨t.cols, rows⟩)

/-- Line 113 at the table level (KeyError when the column is absent). -/
def transformVolCol (t : Table) : Except Unit Table :=
  match colIdx t "Vol." with
  | none => .error ()
  | some j => mapColE t j transformVolCell

/-- Line 114 at the table level. -/
def transformPctCol (t : Table) : Except Unit Table :=
  match colIdx t "Change %" with
  | none => .error ()
  | some j => mapColE t j transformPctCell

/-- pd.to_numeric(x, errors="coerce") on one cell: numbers pass, NaN stays,
a string parses or becomes NaN, a datetime coerces to its epoch offset.
The function is total: no value makes it raise. -/
def toNumericCoerceCell : Option Val → Option Val
  | none => none
  | some (.num q) => some (.num q)
  | some (.vstr s) => (parseFloat? s).map Val.num
  | some (.date d) => some (.num (d : ℚ))

/-- Lines 115-116: coerce the four price-like columns to numeric.  The only
possible failure is the KeyError for an absent column label; the cell
rewriting itself is total. -/
def coercePriceCols (t : Table) : Except Unit Table :=
  match colIdx t "Price", colIdx t "Open", colIdx t "High", colIdx t "Low" with
  | some jp, some jo, some jh, some jl =>
      .ok ⟨t.cols,
        t.rows.map (fun r =>
          (((r.set jp (toNumericCoerceCell (cellAt r jp))).set jo
              (toNumericCoerceCell (cellAt r jo))).set jh
              (toNumericCoerceCell (cellAt r jh))).set jl
              (toNumericCoerceCell (cellAt r jl)))⟩
  | _, _, _, _ => .error ()

/-- The numeric values among a list of cells (NaN and non-numeric cells
skipped, matching the skipna aggregation of pandas). -/
def cellsNums (cs : List (Option Val)) : List ℚ :=
  cs.filterMap (fun c =>
    match c with
    | some (.num q) => some q
    | _ => none)

/-- Aggregation "mean": mean of the present values, NaN when none. -/
def meanCells (cs : List (Option Val)) : Option Val :=
  let qs := cellsNums cs
  if qs.isEmpty then none else some (.num (qs.sum / qs.length))

/-- Aggregation "max": maximum of the present values, NaN when none. -/
def maxCells (cs : List (Option Val)) : Option Val :=
  match cellsNums cs with
  | [] => none
  | q :: qs => some (.num (qs.foldl max q))

/-- Aggregation "min": minimum of the present values, NaN when none. -/
def minCells (cs : List (Option Val)) : Option Val :=
  match cellsNums cs with
  | [] => none
  | q :: qs => some (.num (qs.foldl min q))

/-- Aggregation "sum": sum of the present values, 0 when none (pandas sums
with min_count=0). -/
def sumCells (cs : List (Option Val)) : Option Val :=
  some (.num (cellsNums cs).sum)

/-- The string values among a list of cells. -/
def cellsStrs (cs : List (Option Val)) : List String :=
  cs.filterMap (fun c =>
    match c with
    | some (.vstr s) => some s
    | _ => none)

/-- Aggregation lambda x: ", ".join(set(x)): the distinct commodity labels
joined by ", ".  Python set iteration order is unspecified; first-occurrence
order is chosen here, and the column produced from it is dropped again on
line 130. -/
def joinSetStr (cs : List (Option Val)) : Option Val :=
  some (.vstr (String.intercalate ", " (dedupFirst (cellsStrs cs))))

/-- Date keys of a table: the non-missing values of the Date column, as
groupby collects them (rows with a missing key are dropped). -/
def dateValsAt (t : Table) (j : ℕ) : List Val :=
  (colProj t.rows j).filterMap id

/-- Order on cell values used to model the key sorting of groupby and of an
outer merge; only the ordering of datetime keys matters at the call sites. -/
def valLeB : Val → Val → Bool
  | .date a, .date b => a ≤ b
  | .date _, _ => true
  | .num _, .date _ => false
  | .num a, .num b => a ≤ b
  | .num _, .vstr _ => true
  | .vstr a, .vstr b => (compare a b).isLE
  | .vstr _, _ => false

/-- The aggregated output row of one date group, in the column order of the
agg dictionary of lines 118-128. -/
def aggRow (t : Table) (jD jO jH jL jV jC jP jCm : ℕ) (v : Val) :
    List (Option Val) :=
  let g := t.rows.filter (fun r => cellAt r jD == some v)
  [some v, meanCells (colProj g jO), maxCells (colProj g jH),
   minCells (colProj g jL), sumCells (colProj g jV), meanCells (colProj g jC),
   meanCells (colProj g jP), joinSetStr (colProj g jCm)]

/-- Lines 118-128: groupby("Date").agg({...}).reset_index(): one output row
per distinct non-missing Date key, keys sorted ascending, Date first and the
aggregated columns in dictionary order. -/
def groupbyAggDate (t : Table) : Except Unit Table :=
  match colIdx t "Date", colIdx t "Open", colIdx t "High", colIdx t "Low",
        colIdx t "Vol.", colIdx t "Change %", colIdx t "Price",
        colIdx t "Commodity" with
  | some jD, some jO, some jH, some jL, some jV, some jC, some jP, some jCm =>
      .ok ⟨["Date", "Open", "High", "Low", "Vol.", "Change %", "Price", "Commodity"],
        (sortByB valLeB (dedupFirst (dateValsAt t jD))).map
          (aggRow t jD jO jH jL jV jC jP jCm)⟩
  | _, _, _, _, _, _, _, _ => .error ()

/-- Drop a column by position. -/
def dropColAt (t : Table) (j : ℕ) : Table :=
  ⟨t.cols.eraseIdx j, t.rows.map (fun r => r.eraseIdx j)⟩

/-- df.drop(columns=[c]): drop a column by label, KeyError when absent. -/
def dropColNamed (t : Table) (c : String) : Except Unit Table :=
  match colIdx t c with
  | none => .error ()
  | some j => .ok (dropColAt t j)

/-- Lines 113-130: the post-accumulation transforms of the global commodity
loader followed by the date aggregation and the drop of the commodity-list
column. -/
def get_global_commodity_post (t : Table) : Except Unit Table :=
  match transformVolCol t with
  | .error e => .error e
  | .ok t1 =>
      match transformPctCol t1 with
      | .error e => .error e
      | .ok t2 =>
          match coercePriceCols t2 with
          | .error e => .error e
          | .ok t3 =>
              match groupbyAggDate t3 with
              | .error e => .error e
              | .ok t4 => dropColNamed t4 "Commodity"

/-- Commodity label derived from a file name on line 105: the part before
"Futures Historical Data", stripped. -/
def commodityLabel (csv : String) : String :=
  ((csv.splitOn "Futures Historical Data").headD "").trim

/-- Column assignment df[c] = v with a scalar: overwrite when the label
exists, append a new column otherwise. -/
def setColConst (t : Table) (c : String) (v : Option Val) : Table :=
  match colIdx t c with
  | some j => ⟨t.cols, t.rows.map (fun r => r.set j v)⟩
  | none => ⟨t.cols ++ [c], t.rows.map (fun r => r ++ [v])⟩

/-- Per-file body of the loop of lines 103-111 (reading the file is outside
the model; the per-file table is the input). -/
def processCommodityFile (startDate endDate : ℕ) (csv : String) (df : Table) :
    Except Unit Table :=
  fill_missing_dates
    (clean_data (setColConst df "Commodity" (some (.vstr (commodityLabel csv)))))
    startDate endDate

/-- Row-wise concatenation pd.concat([a, b]): columns are the union (order
of the first table first), and each row is realigned to the union by label,
absent labels reading as missing. -/
def reindexRowFor (t : Table) (allCols : List String) (r : List (Option Val)) :
    List (Option Val) :=
  allCols.map (fun c =>
    match colIdx t c with
    | some j => cellAt r j
    | none => none)

/-- pd.concat of two tables. -/
def concatT (a b : Table) : Table :=
  let cols := a.cols ++ b.cols.filter (fun c => !(a.cols.contains c))
  ⟨cols, a.rows.map (reindexRowFor a cols) ++ b.rows.map (reindexRowFor b cols)⟩

/-- One loop step of an accumulating concatenation: the python pattern
joined = df if joined is None else pd.concat([joined, df]). -/
def accStep (acc : Option Table) (d : Table) : Table :=
  match acc with
  | none => d
  | some j => concatT j d

/-- Accumulation loop of the global commodity loader (lines 100-111); the
loop concatenates with ignore_index=True, which only renumbers the row
index. -/
def gcLoop (startDate endDate : ℕ) :
    Option Table → List (String × Table) → Except Unit (Option Table)
  | acc, [] => .ok acc
  | acc, f :: fs =>
      match processCommodityFile startDate endDate f.1 f.2 with
      | .error e => .error e
      | .ok d => gcLoop startDate endDate (some (accStep acc d)) fs

/-- get_global_commodity_data over a directory listing of (file name,
file table) pairs.  The python code dereferences the accumulator after the
loop, so an empty directory raises (AttributeError on None). -/
def get_global_commodity_data (startDate endDate : ℕ)
    (files : List (String × Table)) : Except Unit Table :=
  match gcLoop startDate endDate none files with
  | .error e => .error e
  | .ok none => .error ()
  | .ok (some t) => get_global_commodity_post t

/-! ### Google Trend Loader (get_google_trend_data, lines 134-167) -/

/-- Province label of line 152: the file name up to the first dot. -/
def stemOf (file : String) : String := (file.splitOn ".").headD ""

/-- Column assignment df[c] = df[src-column]: per-row copy of the cell at
position src. -/
def setColCopy (t : Table) (c : String) (src : ℕ) : Table :=
  match colIdx t c with
  | some j => ⟨t.cols, t.rows.map (fun r => r.set j (cellAt r src))⟩
  | none => ⟨t.cols ++ [c], t.rows.map (fun r => r ++ [cellAt r src])⟩

/-- Lines 154-159 of the per-province body: tag with lowercase commodity and
province, copy the second column into GTPrice, impute zeros, clean. -/
def trendPreClean (commodity provinceFile : String) (df : Table) : Table :=
  clean_data
    (replace_zeros_with_mean
      (setColCopy
        (setColConst
          (setColConst df "Commodity" (some (.vstr commodity.toLower)))
          "Province" (some (.vstr (stemOf provinceFile).toLower)))
        "GTPrice" 1))

/-- Full per-(commodity, province) body of lines 150-162: the tagging and
cleaning prefix, date normalization, and the drop of the (superseded) second
column; reading fewer than two columns raises IndexError. -/
def processTrendFile (startDate endDate : ℕ) (commodity provinceFile : String)
    (df : Table) : Except Unit Table :=
  if (setColConst
      (setColConst df "Commodity" (some (.vstr commodity.toLower)))
      "Province" (some (.vstr (stemOf provinceFile).toLower))).cols.length < 2
  then .error ()
  else
    match fill_missing_dates (trendPreClean commodity provinceFile df)
        startDate endDate with
    | .error e => .error e
    | .ok d6 =>
        if d6.cols.length < 2 then .error () else .ok (dropColAt d6 1)

/-- Accumulation loop over all (commodity, province file, file table)
triples, concatenating without date-level aggregation. -/
def gtLoop (startDate endDate : ℕ) :
    Option Table → List (String × String × Table) → Except Unit (Option Table)
  | acc, [] => .ok acc
  | acc, f :: fs =>
      match processTrendFile startDate endDate f.1 f.2.1 f.2.2 with
      | .error e => .error e
      | .ok d => gtLoop startDate endDate (some (accStep acc d)) fs

/-- get_google_trend_data over the flattened directory listing; an empty
listing returns None. -/
def get_google_trend_data (startDate endDate : ℕ)
    (files : List (String × String × Table)) : Except Unit (Option Table) :=
  gtLoop startDate endDate none files

/-- Number of rows carrying the given lowercase (commodity, province) tag
pair: the size of that group of a groupby on the two tag columns. -/
def groupCount (t : Table) (c p : String) : ℕ :=
  match colIdx t "Commodity", colIdx t "Province" with
  | some jc, some jp =>
      t.rows.countP (fun r =>
        cellAt r jc == some (.vstr c) && cellAt r jp == some (.vstr p))
  | _, _ => 0

/-! ### Dataset Assembler (get_dataset, lines 211-229) -/

/-- Whether a cell holds a (parsed) datetime value. -/
def isDateCell : Option Val → Bool
  | some (.date _) => true
  | _ => false

/-- Key order for the row sorting an outer merge performs: non-missing keys
ascending, missing keys last. -/
def cellKeyLeB : Option Val → Option Val → Bool
  | none, none => true
  | none, some _ => false
  | some _, none => true
  | some a, some b => valLeB a b

/-- The right rows matching one left row in an outer merge (a missing key
matches nothing). -/
def mergeMatches (r : Table) (jl jr : ℕ) (lr : List (Option Val)) :
    List (List (Option Val)) :=
  if (cellAt lr jl).isSome
  then r.rows.filter (fun rr => cellAt rr jr == cellAt lr jl) else []

/-- The output rows one left row contributes to an outer merge: one row per
matching right row, or a single row padded with missing right cells. -/
def mergeBlock (r : Table) (jl jr : ℕ) (lr : List (Option Val)) :
    List (List (Option Val)) :=
  if (mergeMatches r jl jr lr).isEmpty
  then [lr ++ List.replicate (r.cols.eraseIdx jr).length none]
  else (mergeMatches r jl jr lr).map (fun rr => lr ++ rr.eraseIdx jr)

/-- The rows an outer merge produces from the left side. -/
def mergeLeftPart (l r : Table) (jl jr : ℕ) : List (List (Option Val)) :=
  (l.rows.map (mergeBlock r jl jr)).flatten

/-- The rows an outer merge retains from the unmatched right side, padded
with missing left cells except for the key. -/
def mergeRightOnly (l r : Table) (jl jr : ℕ) : List (List (Option Val)) :=
  (r.rows.filter (fun rr =>
    !((cellAt rr jr).isSome && l.rows.any (fun lr => cellAt lr jl == cellAt rr jr)))).map
    (fun rr => (List.replicate l.cols.length none).set jl (cellAt rr jr)
      ++ rr.eraseIdx jr)

/-- pd.merge(l, r, on="Date", how="outer"): the left part plus the unmatched
right rows, sorted by key as an outer merge sorts.  KeyError when either
table lacks the Date column.  Non-key column labels are disjoint at the call
site, so suffixing of shared labels is not modelled. -/
def mergeOuterOnDate (l r : Table) : Except Unit Table :=
  match colIdx l "Date", colIdx r "Date" with
  | some jl, some jr =>
      .ok ⟨l.cols ++ r.cols.eraseIdx jr,
        sortByB (fun r1 r2 => cellKeyLeB (cellAt r1 jl) (cellAt r2 jl))
          (mergeLeftPart l r jl jr ++ mergeRightOnly l r jl jr)⟩
  | _, _ => .error ()

/-- get_dataset on already loaded family tables: coerce both Date columns to
datetime (lines 223-224), then outer-join on Date (lines 226-227). -/
def get_dataset_model (gc gt : Table) : Except Unit Table :=
  match parseDateCol gc with
  | .error e => .error e
  | .ok gc2 =>
      match parseDateCol gt with
      | .error e => .error e
      | .ok gt2 => mergeOuterOnDate gc2 gt2

/-- Whether a cell is a datetime lying inside the inclusive day range. -/
def dateInRange (startD endD : ℕ) : Option Val → Bool
  | some (.date d) => startD ≤ d && d ≤ endD
  | _ => false

/-- Position of the Date column (0 when absent; used together with a
separate presence condition). -/
def jDate (df : Table) : ℕ := (colIdx df "Date").getD 0

/-- The decidable per-file side conditions under which one Google Trend file
flows through the loader as the claim describes: a rectangular table with
distinct column labels, at least two columns, none of the three tag labels
already present, a Date column whose cells are missing or datetimes with
pairwise distinct dates, and at least one surviving row (after tagging,
imputation and cleaning) dated inside the configured range. -/
def trendFileOK (startD endD : ℕ) (f : String × String × Table) : Prop :=
  f.2.2.cols.Nodup ∧ 2 ≤ f.2.2.cols.length ∧ wf f.2.2 ∧
  "Commodity" ∉ f.2.2.cols ∧ "Province" ∉ f.2.2.cols ∧ "GTPrice" ∉ f.2.2.cols ∧
  (colIdx f.2.2 "Date").isSome = true ∧
  (∀ r ∈ f.2.2.rows, cellAt r (jDate f.2.2) = none ∨
    isDateCell (cellAt r (jDate f.2.2)) = true) ∧
  ((colProj f.2.2.rows (jDate f.2.2)).filterMap id).Nodup ∧
  ∃ r ∈ (trendPreClean f.1 f.2.1 f.2.2).rows,
    dateInRange startD endD (cellAt r (jDate f.2.2)) = true

instance (startD endD : ℕ) (f : String × String × Table) :
    Decidable (trendFileOK startD endD f) := by
  unfold trendFileOK
  infer_instance

/-- The per-file table of the Google Trend loader after the three column
assignments of lines 154-157 (Commodity tag, Province tag, GTPrice copy of
the second column), written out for the case where none of the three labels
is already a column of the input, so each assignment appends. -/
def tagRow (commodity provinceFile : String) (r : List (Option Val)) :
    List (Option Val) :=
  ((r ++ [some (.vstr commodity.toLower)]) ++
    [some (.vstr (stemOf provinceFile).toLower)]) ++
  [cellAt ((r ++ [some (.vstr commodity.toLower)]) ++
    [some (.vstr (stemOf provinceFile).toLower)]) 1]

def trendTagged (commodity provinceFile : String) (df : Table) : Table :=
  ⟨((df.cols ++ ["Commodity"]) ++ ["Province"]) ++ ["GTPrice"],
   df.rows.map (tagRow commodity provinceFile)⟩

/-- The per-file table of the Google Trend loader right after the date
normalization of line 160 (before the drop of the second column), as
fill_missing_dates produces it when the Date lookup and the parse succeed. -/
def trendNormalized (startDate endDate : ℕ) (commodity provinceFile : String)
    (df : Table) : Table :=
  bfillT (ffillT (leftMergeFullDates startDate endDate
    (trendPreClean commodity provinceFile df) (jDate df)))

/-! ### Generic list lemmas used by the verification -/

theorem pg_getD_map {l : List α} {f : α → β} {j : ℕ} {d : β} (d' : α)
    (h : j < l.length) : (l.map f).getD j d = f (l.getD j d') := by
  induction l generalizing j with
  | nil => simp at h
  | cons a as ih =>
    cases j with
    | zero => simp [List.getD]
    | succ n =>
      simp only [List.map_cons] at *
      simpa [List.getD] using ih (by simpa using h)

theorem pg_getD_append_left {l1 l2 : List α} {j : ℕ} {d : α}
    (h : j < l1.length) : (l1 ++ l2).getD j d = l1.getD j d := by
  induction l1 generalizing j with
  | nil => simp at h
  | cons a as ih =>
    cases j with
    | zero => simp [List.getD]
    | succ n => simpa [List.getD] using ih (by simpa using h)

theorem pg_getD_append_right {l1 l2 : List α} {j : ℕ} {d : α}
    (h : l1.length ≤ j) : (l1 ++ l2).getD j d = l2.getD (j - l1.length) d := by
  induction l1 generalizing j with
  | nil => simp
  | cons a as ih =>
    cases j with
    | zero => simp at h
    | succ n =>
      simp only [List.cons_append, List.length_cons] at *
      simpa [List.getD, Nat.succ_sub_succ] using ih (by omega)

theorem pg_getD_set_eq {l : List α} {j : ℕ} {v d : α} (h : j < l.length) :
    (l.set j v).getD j d = v := by
  induction l generalizing j with
  | nil => simp at h
  | cons a as ih =>
    cases j with
    | zero => simp [List.getD]
    | succ n => simpa [List.getD] using ih (by simpa using h)

theorem pg_getD_set_ne {l : List α} {i j : ℕ} {v d : α} (h : i ≠ j) :
    (l.set i v).getD j d = l.getD j d := by
  induction l generalizing i j with
  | nil => simp
  | cons a as ih =>
    cases i with
    | zero =>
      cases j with
      | zero => exact absurd rfl h
      | succ m => simp [List.getD]
    | succ n =>
      cases j with
      | zero => simp [List.getD]
      | succ m => simpa [List.getD] using ih (fun hc => h (by simp [hc]))

theorem pg_set_getD_self {l : List α} {j : ℕ} {d : α} :
    l.set j (l.getD j d) = l := by
  induction l generalizing j with
  | nil => simp
  | cons a as ih =>
    cases j with
    | zero => simp [List.getD]
    | succ n => simpa [List.getD] using ih

theorem pg_getD_eraseIdx_lt {l : List α} {k j : ℕ} {d : α} (h : j < k) :
    (l.eraseIdx k).getD j d = l.getD j d := by
  induction l generalizing k j with
  | nil => simp
  | cons a as ih =>
    cases k with
    | zero => simp at h
    | succ n =>
      cases j with
      | zero => simp [List.getD, List.eraseIdx]
      | succ m => simpa [List.getD, List.eraseIdx] using ih (by omega)

theorem pg_getD_eraseIdx_ge {l : List α} {k j : ℕ} {d : α} (h : k ≤ j) :
    (l.eraseIdx k).getD j d = l.getD (j + 1) d := by
  induction l generalizing k j with
  | nil => simp
  | cons a as ih =>
    cases k with
    | zero => simp [List.getD, List.eraseIdx]
    | succ n =>
      cases j with
      | zero => simp at h
      | succ m => simpa [List.getD, List.eraseIdx] using ih (by omega)

theorem pg_getD_replicate_none {n j : ℕ} :
    (List.replicate n (none : Option Val)).getD j none = none := by
  induction n generalizing j with
  | zero => simp
  | succ m ih =>
    cases j with
    | zero => simp [List.replicate, List.getD]
    | succ i => simp [List.replicate, List.getD, ih]

theorem pg_map_getD_range {l : List α} {d : α} :
    (List.range l.length).map (fun j => l.getD j d) = l := by
  induction l with
  | nil => simp
  | cons a as ih =>
    rw [List.length_cons, List.range_succ_eq_map, List.map_cons, List.map_map]
    have h2 : ((fun j => (a :: as).getD j d) ∘ Nat.succ) = (fun j => as.getD j d) := by
      funext j
      simp [List.getD]
    rw [h2, ih]
    simp [List.getD]

theorem pg_sum_ones {l : List α} : ((l.map fun _ => (1 : ℕ)).sum) = l.length := by
  induction l with
  | nil => rfl
  | cons a as ih => simp [ih, Nat.add_comm]

theorem pg_mapWithIdx_length {f : ℕ → α → β} {i : ℕ} {l : List α} :
    (mapWithIdx f i l).length = l.length := by
  induction l generalizing i with
  | nil => rfl
  | cons a as ih => simp [mapWithIdx, ih]

theorem pg_getD_mapWithIdx {f : ℕ → α → α} {i j : ℕ} {l : List α} {d : α}
    (h : j < l.length) :
    (mapWithIdx f i l).getD j d = f (i + j) (l.getD j d) := by
  induction l generalizing i j with
  | nil => simp at h
  | cons a as ih =>
    cases j with
    | zero => simp [mapWithIdx, List.getD]
    | succ n =>
      have hn : n < as.length := by simpa using h
      have heq : i + 1 + n = i + (n + 1) := by omega
      rw [show mapWithIdx f i (a :: as) = f i a :: mapWithIdx f (i + 1) as from rfl,
        List.getD_cons_succ, List.getD_cons_succ, ih hn, heq]

theorem pg_getD_mapWithIdx_oob {f : ℕ → α → α} {i j : ℕ} {l : List α} {d : α}
    (h : l.length ≤ j) : (mapWithIdx f i l).getD j d = d := by
  apply List.getD_eq_default
  simpa [pg_mapWithIdx_length] using h

theorem pg_mapE_ok {f : α → Except Unit β} :
    ∀ {l : List α} {l2 : List β}, mapE f l = .ok l2 →
      l2.length = l.length ∧
      ∀ i a, l.get? i = some a → ∃ b, f a = .ok b ∧ l2.get? i = some b := by
  intro l
  induction l with
  | nil =>
    intro l2 h
    cases h
    exact ⟨rfl, by intro i a h; simp at h⟩
  | cons a as ih =>
    intro l2 h
    rw [mapE] at h
    cases hfa : f a with
    | error e => rw [hfa] at h; exact absurd h (by simp)
    | ok b =>
      rw [hfa] at h
      cases hms : mapE f as with
      | error e => rw [hms] at h; exact absurd h (by simp)
      | ok bs =>
        rw [hms] at h
        cases h
        obtain ⟨hlen, hget⟩ := ih hms
        refine ⟨by simp [hlen], ?_⟩
        intro i x hx
        cases i with
        | zero =>
          simp only [List.get?] at hx
          cases hx
          exact ⟨b, hfa, rfl⟩
        | succ n =>
          simp only [List.get?] at hx ⊢
          exact hget n x hx

theorem pg_mapE_error_of_error {f : α → Except Unit β} {l : List α} {i : ℕ} {a : α}
    (ha : l.get? i = some a) (hfa : f a = .error ()) : mapE f l = .error () := by
  induction l generalizing i with
  | nil => simp at ha
  | cons x xs ih =>
    cases i with
    | zero =>
      simp only [List.get?] at ha
      cases ha
      rw [mapE, hfa]
    | succ n =>
      simp only [List.get?] at ha
      rw [mapE]
      cases hfx : f x with
      | error e => cases e; rfl
      | ok b => rw [ih ha]

theorem pg_findIdxA_some {p : α → Bool} (d : α) :
    ∀ {l : List α} {j : ℕ}, findIdxA p l = some j →
      j < l.length ∧ p (l.getD j d) = true := by
  intro l
  induction l with
  | nil => intro j h; simp [findIdxA] at h
  | cons a as ih =>
    intro j h
    rw [findIdxA] at h
    by_cases hp : p a
    · rw [if_pos hp] at h
      cases h
      exact ⟨Nat.succ_pos _, by simpa [List.getD] using hp⟩
    · rw [if_neg hp] at h
      cases has : findIdxA p as with
      | none => rw [has] at h; simp at h
      | some m =>
        rw [has] at h
        simp only [Option.map_some'] at h
        cases h
        obtain ⟨hlt, hm⟩ := ih has
        exact ⟨by simpa using hlt, by simpa [List.getD] using hm⟩

theorem pg_findIdxA_append_left {p : α → Bool} :
    ∀ {l1 : List α} {j : ℕ} (l2 : List α), findIdxA p l1 = some j →
      findIdxA p (l1 ++ l2) = some j := by
  intro l1
  induction l1 with
  | nil => intro j l2 h; simp [findIdxA] at h
  | cons a as ih =>
    intro j l2 h
    rw [findIdxA] at h
    rw [List.cons_append, findIdxA]
    by_cases hp : p a
    · rw [if_pos hp] at h ⊢; exact h
    · rw [if_neg hp] at h ⊢
      cases has : findIdxA p as with
      | none => rw [has] at h; simp at h
      | some m => rw [has] at h; rw [ih l2 has]; exact h

theorem pg_findIdxA_not_mem {c : α} [DecidableEq α] :
    ∀ {l : List α}, c ∉ l → findIdxA (fun x => x == c) l = none := by
  intro l
  induction l with
  | nil => intro _; rfl
  | cons a as ih =>
    intro h
    rw [findIdxA]
    have ha : ¬(a == c) = true := by
      simp only [beq_iff_eq]
      intro hc
      exact h (hc ▸ List.mem_cons_self a as)
    rw [if_neg ha, ih (fun hm => h (List.mem_cons_of_mem _ hm))]
    rfl

theorem pg_findIdxA_append_right {c : α} [DecidableEq α] :
    ∀ {l1 l2 : List α} {j : ℕ}, c ∉ l1 →
      findIdxA (fun x => x == c) l2 = some j →
      findIdxA (fun x => x == c) (l1 ++ l2) = some (l1.length + j) := by
  intro l1
  induction l1 with
  | nil => intro l2 j _ h; simpa using h
  | cons a as ih =>
    intro l2 j hnm h
    rw [List.cons_append, findIdxA]
    have ha : ¬(a == c) = true := by
      simp only [beq_iff_eq]
      intro hc
      exact hnm (hc ▸ List.mem_cons_self a as)
    rw [if_neg ha, ih (fun hm => hnm (List.mem_cons_of_mem _ hm)) h]
    simp only [Option.map_some', List.length_cons]
    refine congrArg some ?_
    omega

theorem pg_colIdx_lt {t : Table} {c : String} {j : ℕ} (h : colIdx t c = some j) :
    j < t.cols.length :=
  (pg_findIdxA_some "" h).1

theorem pg_colIdx_name {t : Table} {c : String} {j : ℕ} (h : colIdx t c = some j) :
    t.cols.getD j "" = c := by
  have := (pg_findIdxA_some "" h).2
  simpa [beq_iff_eq] using this

theorem pg_mem_dedupFirst [DecidableEq α] (a : α) (l : List α) :
    a ∈ dedupFirst l ↔ a ∈ l := by
  induction l using dedupFirst.induct with
  | case1 => simp [dedupFirst]
  | case2 x xs ih =>
    rw [dedupFirst]
    constructor
    · intro h
      rcases List.mem_cons.mp h with h | h
      · exact h ▸ List.mem_cons_self _ _
      · exact List.mem_cons_of_mem _ (List.mem_of_mem_filter (ih.mp h))
    · intro h
      rcases List.mem_cons.mp h with h | h
      · exact h ▸ List.mem_cons_self _ _
      · by_cases hax : a = x
        · exact hax ▸ List.mem_cons_self _ _
        · refine List.mem_cons_of_mem _ (ih.mpr ?_)
          refine List.mem_filter.mpr ⟨h, ?_⟩
          simpa using hax

theorem pg_nodup_dedupFirst [DecidableEq α] (l : List α) :
    (dedupFirst l).Nodup := by
  induction l using dedupFirst.induct with
  | case1 => simp [dedupFirst]
  | case2 x xs ih =>
    rw [dedupFirst]
    refine List.nodup_cons.mpr ⟨?_, ih⟩
    intro hmem
    have := List.of_mem_filter ((pg_mem_dedupFirst _ _).mp hmem)
    simp at this

theorem pg_dedupFirst_eq_self [DecidableEq α] {l : List α} (h : l.Nodup) :
    dedupFirst l = l := by
  induction l using dedupFirst.induct with
  | case1 => simp [dedupFirst]
  | case2 x xs ih =>
    obtain ⟨hx, hxs⟩ := List.nodup_cons.mp h
    have hf : xs.filter (fun b => b ≠ x) = xs := by
      refine List.filter_eq_self.mpr ?_
      intro b hb
      simp only [ne_eq, decide_eq_true_eq]
      intro hbx
      exact hx (hbx ▸ hb)
    have ih2 := ih (by rw [hf]; exact hxs)
    rw [hf] at ih2
    rw [dedupFirst, hf, ih2]

theorem pg_insertByB_perm (le : α → α → Bool) (x : α) (l : List α) :
    (insertByB le x l).Perm (x :: l) := by
  induction l with
  | nil => exact List.Perm.refl _
  | cons y ys ih =>
    rw [insertByB]
    by_cases h : le x y
    · rw [if_pos h]
    · rw [if_neg h]
      exact (ih.cons y).trans (List.Perm.swap x y ys)

theorem pg_sortByB_perm (le : α → α → Bool) (l : List α) :
    (sortByB le l).Perm l := by
  induction l with
  | nil => exact List.Perm.refl _
  | cons x xs ih =>
    rw [sortByB]
    exact (pg_insertByB_perm le x (sortByB le xs)).trans (ih.cons x)

theorem pg_fillMissing_length :
    ∀ (c r : List (Option Val)), (fillMissing c r).length = r.length := by
  intro c r
  induction r generalizing c with
  | nil => cases c <;> rfl
  | cons v vs ih =>
    cases c with
    | nil => simp [fillMissing, ih]
    | cons x xs => simp [fillMissing, ih]

theorem pg_cellAt_fillMissing {c r : List (Option Val)} {j : ℕ}
    (h : j < r.length) :
    cellAt (fillMissing c r) j =
      (if (cellAt r j).isSome then cellAt r j else cellAt c j) := by
  induction r generalizing c j with
  | nil => simp at h
  | cons v vs ih =>
    cases c with
    | nil =>
      cases j with
      | zero =>
        cases v with
        | none => simp [fillMissing, cellAt]
        | some x => simp [fillMissing, cellAt]
      | succ n =>
        have := ih (c := []) (j := n) (by simpa using h)
        simpa [fillMissing, cellAt, List.getD] using this
    | cons x xs =>
      cases j with
      | zero => simp [fillMissing, cellAt, List.getD]
      | succ n =>
        have := ih (c := xs) (j := n) (by simpa using h)
        simpa [fillMissing, cellAt, List.getD] using this

theorem pg_ffillRows_length :
    ∀ (c : List (Option Val)) (rows : List (List (Option Val))),
      (ffillRows c rows).length = rows.length := by
  intro c rows
  induction rows generalizing c with
  | nil => rfl
  | cons r rs ih => simp [ffillRows, ih]

theorem pg_ffill1_length :
    ∀ (c : Option Val) (cs : List (Option Val)), (ffill1 c cs).length = cs.length := by
  intro c cs
  induction cs generalizing c with
  | nil => rfl
  | cons v vs ih => simp [ffill1, ih]

theorem pg_colProj_ffillRows {j : ℕ} :
    ∀ {rows : List (List (Option Val))} {carry : List (Option Val)},
      (∀ r ∈ rows, j < r.length) →
      colProj (ffillRows carry rows) j = ffill1 (cellAt carry j) (colProj rows j) := by
  intro rows
  induction rows with
  | nil => intro carry _; rfl
  | cons r rs ih =>
    intro carry h
    have hr : j < r.length := h r (List.mem_cons_self _ _)
    have hfill := pg_cellAt_fillMissing (c := carry) hr
    rw [ffillRows, colProj, List.map_cons, colProj, List.map_cons, ffill1]
    simp only at hfill ⊢
    rw [← colProj, ← colProj, ih (fun x hx => h x (List.mem_cons_of_mem _ hx)),
      hfill]

theorem pg_colProj_reverse {rows : List (List (Option Val))} {j : ℕ} :
    colProj rows.reverse j = (colProj rows j).reverse := by
  simp [colProj, List.map_reverse]

theorem pg_ffill1_all_of_carry {c : Option Val} (hc : c.isSome = true) :
    ∀ {cs : List (Option Val)}, ((ffill1 c cs).all fun x => x.isSome) = true := by
  intro cs
  induction cs generalizing c with
  | nil => rfl
  | cons v vs ih =>
    cases hv : v.isSome with
    | true =>
      rw [show ffill1 c (v :: vs) = v :: ffill1 v vs by simp [ffill1, hv]]
      simp only [List.all_cons, hv, Bool.true_and]
      exact ih hv
    | false =>
      rw [show ffill1 c (v :: vs) = c :: ffill1 c vs by simp [ffill1, hv]]
      simp only [List.all_cons, hc, Bool.true_and]
      exact ih hc

theorem pg_ffill1_getLast_some :
    ∀ {cs : List (Option Val)} {c : Option Val}, cs ≠ [] →
      (c.isSome = true ∨ cs.any (fun x => x.isSome) = true) →
      ∃ x, (ffill1 c cs).getLast? = some x ∧ x.isSome = true := by
  intro cs
  induction cs with
  | nil => intro c h; exact absurd rfl h
  | cons v vs ih =>
    intro c _ hh
    have hcarry : ((if v.isSome then v else c).isSome = true) ∨
        (vs.any fun x => x.isSome) = true := by
      cases hv : v.isSome with
      | true => exact Or.inl (by simp [hv])
      | false =>
        rcases hh with h | h
        · exact Or.inl (by simp [hv, h])
        · simp only [List.any_cons, hv, Bool.false_or] at h
          exact Or.inr h
    cases vs with
    | nil =>
      refine ⟨if v.isSome then v else c, by simp [ffill1], ?_⟩
      rcases hcarry with h | h
      · exact h
      · simp at h
    | cons w ws =>
      obtain ⟨x, hx, hxs⟩ := ih (by simp) hcarry
      refine ⟨x, ?_, hxs⟩
      rw [show ffill1 c (v :: w :: ws) =
        (if v.isSome then v else c) :: ffill1 (if v.isSome then v else c) (w :: ws)
        from rfl]
      rw [show ffill1 (if v.isSome then v else c) (w :: ws) =
        (if w.isSome then w else (if v.isSome then v else c)) ::
          ffill1 (if w.isSome then w else (if v.isSome then v else c)) ws from rfl]
      rw [List.getLast?_cons_cons]
      rw [show (if w.isSome then w else if v.isSome then v else c) ::
          ffill1 (if w.isSome then w else if v.isSome then v else c) ws =
          ffill1 (if v.isSome then v else c) (w :: ws) from rfl]
      exact hx

theorem pg_ffill1_mem :
    ∀ {cs : List (Option Val)} {c x : Option Val}, x ∈ ffill1 c cs →
      x = c ∨ x ∈ cs := by
  intro cs
  induction cs with
  | nil => intro c x h; simp [ffill1] at h
  | cons v vs ih =>
    intro c x h
    rw [show ffill1 c (v :: vs) =
      (if v.isSome then v else c) :: ffill1 (if v.isSome then v else c) vs
      from rfl] at h
    rcases List.mem_cons.mp h with h | h
    · by_cases hv : v.isSome
      · rw [if_pos hv] at h
        exact Or.inr (h ▸ List.mem_cons_self _ _)
      · rw [if_neg hv] at h
        exact Or.inl h
    · rcases ih h with h2 | h2
      · by_cases hv : v.isSome
        · rw [if_pos hv] at h2
          exact Or.inr (h2 ▸ List.mem_cons_self _ _)
        · rw [if_neg hv] at h2
          exact Or.inl h2
      · exact Or.inr (List.mem_cons_of_mem _ h2)

theorem pg_all_reverse {l : List (Option Val)} {p : Option Val → Bool} :
    (l.reverse.all p) = (l.all p) := by
  induction l with
  | nil => rfl
  | cons a as ih =>
    simp [List.reverse_cons, List.all_append, ih, Bool.and_comm]

theorem pg_afterFB_length {cs : List (Option Val)} :
    (afterFB cs).length = cs.length := by
  simp [afterFB, pg_ffill1_length]

theorem pg_afterFB_all_some {cs : List (Option Val)}
    (h : (cs.any fun x => x.isSome) = true) :
    ((afterFB cs).all fun x => x.isSome) = true := by
  have hne : cs ≠ [] := by
    intro hc
    subst hc
    simp at h
  obtain ⟨x, hlast, hxs⟩ := pg_ffill1_getLast_some (c := none) hne (Or.inr h)
  have hhead : (ffill1 none cs).reverse.head? = some x := by
    rw [List.head?_reverse]
    exact hlast
  rw [afterFB, pg_all_reverse]
  cases hrev : (ffill1 none cs).reverse with
  | nil => rw [hrev] at hhead; simp at hhead
  | cons y ys =>
    rw [hrev] at hhead
    simp only [List.head?_cons, Option.some.injEq] at hhead
    subst hhead
    rw [show ffill1 none (y :: ys) = y :: ffill1 y ys by simp [ffill1, hxs]]
    simp only [List.all_cons, hxs, Bool.true_and]
    exact pg_ffill1_all_of_carry hxs

theorem pg_afterFB_mem {cs : List (Option Val)} {x : Option Val}
    (h : x ∈ afterFB cs) : x = none ∨ x ∈ cs := by
  rw [afterFB, List.mem_reverse] at h
  rcases pg_ffill1_mem h with h2 | h2
  · exact Or.inl h2
  · rw [List.mem_reverse] at h2
    rcases pg_ffill1_mem h2 with h3 | h3
    · exact Or.inl h3
    · exact Or.inr h3

theorem pg_ffill1_of_all_some :
    ∀ {cs : List (Option Val)} {c : Option Val}, (cs.all fun x => x.isSome) = true →
      ffill1 c cs = cs := by
  intro cs
  induction cs with
  | nil => intro c _; rfl
  | cons v vs ih =>
    intro c h
    simp only [List.all_cons, Bool.and_eq_true] at h
    rw [show ffill1 c (v :: vs) =
      (if v.isSome then v else c) :: ffill1 (if v.isSome then v else c) vs
      from rfl]
    rw [if_pos h.1, ih h.2]

theorem pg_afterFB_of_all_some {cs : List (Option Val)}
    (h : (cs.all fun x => x.isSome) = true) : afterFB cs = cs := by
  rw [afterFB, pg_ffill1_of_all_some h, pg_ffill1_of_all_some (by rwa [pg_all_reverse]),
    List.reverse_reverse]

theorem pg_count_some_filterMap [DecidableEq α] {a : α} :
    ∀ {l : List (Option α)}, l.count (some a) = (l.filterMap id).count a := by
  intro l
  induction l with
  | nil => rfl
  | cons c t ih =>
    cases c with
    | none => simpa [List.count_cons] using ih
    | some b =>
      by_cases hb : b = a
      · subst hb
        simp [List.count_cons, ih]
      · simp [List.count_cons, ih, hb, Ne.symm hb]

theorem pg_countP_flatten {p : α → Bool} :
    ∀ (L : List (List α)), L.flatten.countP p = (L.map (fun l => l.countP p)).sum := by
  intro L
  induction L with
  | nil => rfl
  | cons l ls ih => simp [List.countP_append, ih]

theorem pg_length_flatten :
    ∀ (L : List (List α)), L.flatten.length = (L.map List.length).sum := by
  intro L
  induction L with
  | nil => rfl
  | cons l ls ih => simp [ih]

theorem pg_flatten_singletons {l : List α} {g : α → β} :
    (l.map (fun x => [g x])).flatten = l.map g := by
  induction l with
  | nil => rfl
  | cons a as ih => simp [ih]

/-! ### Facts about clean_data -/

theorem pg_row_all_isSome_getD {r : List (Option Val)} {j : ℕ}
    (h : (r.all fun c => c.isSome) = true) (hj : j < r.length) :
    (cellAt r j).isSome = true := by
  rw [cellAt, List.getD_eq_getElem r none hj]
  exact List.all_eq_true.mp h _ (List.getElem_mem hj)

theorem pg_clean_data_eq {t : Table} (hwf : wf t) :
    clean_data t =
      ⟨t.cols, dedupFirst (t.rows.filter (fun r => r.all fun c => c.isSome))⟩ := by
  have hmem : ∀ r ∈ dedupFirst (t.rows.filter (fun r => r.all fun c => c.isSome)),
      (r.all fun c => c.isSome) = true ∧ r.length = t.cols.length := by
    intro r hr
    have hf := List.mem_filter.mp ((pg_mem_dedupFirst _ _).mp hr)
    exact ⟨hf.2, hwf r hf.1⟩
  have hkeep : ((List.range t.cols.length).filter
      (fun j => (dedupFirst (t.rows.filter (fun r => r.all fun c => c.isSome))).all
        (fun r => (cellAt r j).isSome))) = List.range t.cols.length := by
    refine List.filter_eq_self.mpr ?_
    intro j hj
    rw [List.mem_range] at hj
    rw [List.all_eq_true]
    intro r hr
    obtain ⟨hall, hlen⟩ := hmem r hr
    simpa using pg_row_all_isSome_getD hall (by omega)
  show dropnaCols _ = _
  rw [dropnaCols]
  simp only [dropDuplicates, dropnaRows, hkeep]
  refine congrArg₂ Table.mk ?_ ?_
  · exact pg_map_getD_range
  · refine (List.map_congr_left ?_).trans (List.map_id _)
    intro r hr
    obtain ⟨_, hlen⟩ := hmem r hr
    have : (List.range r.length).map (fun j => r.getD j none) = r := pg_map_getD_range
    rw [← hlen]
    exact this

/-- C4: the Row Cleaner output has no missing value in any surviving cell and
no two identical rows; the final column-drop step removes a column only when
the table had no rows left (in fact it never removes one, since the row-level
drop already removed every missing value). -/
theorem C4_row_cleaner_invariants (t : Table) (hwf : wf t) :
    (∀ r ∈ (clean_data t).rows, (r.all fun c => c.isSome) = true) ∧
    (clean_data t).rows.Nodup ∧
    (∀ c, c ∈ (dropDuplicates (dropnaRows t)).cols →
      c ∉ (clean_data t).cols → (dropDuplicates (dropnaRows t)).rows = []) := by
  have h := pg_clean_data_eq hwf
  refine ⟨?_, ?_, ?_⟩
  · intro r hr
    rw [h] at hr
    exact (List.mem_filter.mp ((pg_mem_dedupFirst _ _).mp hr)).2
  · rw [h]
    exact pg_nodup_dedupFirst _
  · intro c hc hnc
    exfalso
    apply hnc
    rw [h]
    simpa [dropDuplicates, dropnaRows] using hc

/-- C4 witness: the theorem applied to a concrete table with a sparse missing
value and a duplicate row. -/
theorem C4_row_cleaner_invariants_witness :
    wf (⟨["A", "B"], [[some (.num 1), some (.num 2)],
      [some (.num 1), none],
      [some (.num 1), some (.num 2)]]⟩ : Table) ∧
    (clean_data (⟨["A", "B"], [[some (.num 1), some (.num 2)],
      [some (.num 1), none],
      [some (.num 1), some (.num 2)]]⟩ : Table)).rows.Nodup :=
  ⟨by decide,
   (C4_row_cleaner_invariants
     (⟨["A", "B"], [[some (.num 1), some (.num 2)],
       [some (.num 1), none],
       [some (.num 1), some (.num 2)]]⟩ : Table) (by decide)).2.1⟩

/-- C5: the Row Cleaner is idempotent: cleaning a cleaned table changes
nothing. -/
theorem C5_row_cleaner_idempotent (t : Table) (hwf : wf t) :
    clean_data (clean_data t) = clean_data t := by
  have h1 := pg_clean_data_eq hwf
  have hwf1 : wf (clean_data t) := by
    rw [h1]
    intro r hr
    exact hwf r (List.mem_filter.mp ((pg_mem_dedupFirst _ _).mp hr)).1
  have h2 := pg_clean_data_eq hwf1
  rw [h2, h1]
  simp only
  have hall : ∀ r ∈ dedupFirst (t.rows.filter (fun r => r.all fun c => c.isSome)),
      ((r.all fun c => c.isSome) = true) :=
    fun r hr => (List.mem_filter.mp ((pg_mem_dedupFirst _ _).mp hr)).2
  rw [List.filter_eq_self.mpr hall, pg_dedupFirst_eq_self (pg_nodup_dedupFirst _)]

/-- C5 witness: idempotence at a concrete table holding a missing value, a
duplicate row and an ordinary row. -/
theorem C5_row_cleaner_idempotent_witness :
    wf (⟨["A"], [[some (.num 3)], [none], [some (.num 3)]]⟩ : Table) ∧
    clean_data (clean_data (⟨["A"], [[some (.num 3)], [none], [some (.num 3)]]⟩ : Table)) =
      clean_data (⟨["A"], [[some (.num 3)], [none], [some (.num 3)]]⟩ : Table) :=
  ⟨by decide,
   C5_row_cleaner_idempotent
     (⟨["A"], [[some (.num 3)], [none], [some (.num 3)]]⟩ : Table) (by decide)⟩

/-! ### Facts about replace_zeros_with_mean -/

theorem pg_rz_cell {t : Table} {r : List (Option Val)} {j : ℕ}
    (hne : cellAt r j ≠ some (.num 0)) :
    cellAt (mapWithIdx (fun j2 v =>
      if numericCol t j2 && (v == some (.num 0))
      then Option.map Val.num (nonZeroMean t j2) else v) 0 r) j = cellAt r j := by
  by_cases hj : j < r.length
  · rw [cellAt, pg_getD_mapWithIdx hj]
    have hb : ((r.getD j none) == some (Val.num 0)) = false := by
      rw [beq_eq_false_iff_ne]
      exact hne
    rw [hb, Bool.and_false, if_neg (by simp)]
    rfl
  · rw [cellAt, cellAt, List.getD_eq_default, List.getD_eq_default]
    · omega
    · rw [pg_mapWithIdx_length]; omega

theorem pg_rz_cell_nonnum {t : Table} {r : List (Option Val)} {j : ℕ}
    (hnn : numericCol t j = false) :
    cellAt (mapWithIdx (fun j2 v =>
      if numericCol t j2 && (v == some (.num 0))
      then Option.map Val.num (nonZeroMean t j2) else v) 0 r) j = cellAt r j := by
  by_cases hj : j < r.length
  · rw [cellAt, pg_getD_mapWithIdx hj]
    rw [Nat.zero_add, hnn, Bool.false_and, if_neg (by simp)]
    rfl
  · rw [cellAt, cellAt, List.getD_eq_default, List.getD_eq_default]
    · omega
    · rw [pg_mapWithIdx_length]; omega

/-- C6: the Zero Imputer changes no cell that is not an exact numeric zero;
a column with no zero at all is untouched, and a non-numeric column is
untouched. -/
theorem C6_zero_imputer_frame (t : Table) :
    (replace_zeros_with_mean t).cols = t.cols ∧
    (∀ i r, t.rows.get? i = some r → ∃ r2,
      (replace_zeros_with_mean t).rows.get? i = some r2 ∧
      r2.length = r.length ∧
      ∀ j, cellAt r j ≠ some (.num 0) → cellAt r2 j = cellAt r j) ∧
    (∀ j, (colProj t.rows j).count (some (.num 0)) = 0 →
      colProj (replace_zeros_with_mean t).rows j = colProj t.rows j) ∧
    (∀ j, numericCol t j = false →
      colProj (replace_zeros_with_mean t).rows j = colProj t.rows j) := by
  refine ⟨rfl, ?_, ?_, ?_⟩
  · intro i r hr
    have hmap : (replace_zeros_with_mean t).rows.get? i =
        some (mapWithIdx (fun j2 v =>
          if numericCol t j2 && (v == some (.num 0))
          then Option.map Val.num (nonZeroMean t j2) else v) 0 r) := by
      show (t.rows.map _).get? i = _
      rw [List.get?_map, hr]
      rfl
    exact ⟨_, hmap, pg_mapWithIdx_length, fun j hne => pg_rz_cell hne⟩
  · intro j hcount
    show (t.rows.map _).map _ = _
    rw [List.map_map, colProj]
    refine List.map_congr_left ?_
    intro r hr
    refine pg_rz_cell ?_
    intro hc
    have hmem : (some (Val.num 0)) ∈ colProj t.rows j := by
      rw [colProj]
      exact hc ▸ List.mem_map_of_mem (fun r => cellAt r j) hr
    rw [List.count_eq_zero] at hcount
    exact hcount hmem
  · intro j hnn
    show (t.rows.map _).map _ = _
    rw [List.map_map, colProj]
    refine List.map_congr_left ?_
    intro r _
    exact pg_rz_cell_nonnum hnn

/-- C6 witness: the theorem applied to a table with one numeric column that
contains a zero and one string column. -/
theorem C6_zero_imputer_frame_witness :
    numericCol (⟨["A", "B"], [[some (.num 0), some (.vstr "x")],
      [some (.num 4), some (.vstr "y")]]⟩ : Table) 1 = false ∧
    colProj (replace_zeros_with_mean (⟨["A", "B"],
      [[some (.num 0), some (.vstr "x")],
       [some (.num 4), some (.vstr "y")]]⟩ : Table)).rows 1 =
      colProj (⟨["A", "B"], [[some (.num 0), some (.vstr "x")],
        [some (.num 4), some (.vstr "y")]]⟩ : Table).rows 1 :=
  ⟨by decide,
   (C6_zero_imputer_frame (⟨["A", "B"], [[some (.num 0), some (.vstr "x")],
     [some (.num 4), some (.vstr "y")]]⟩ : Table)).2.2.2 1 (by decide)⟩

/-- C9: the Zero Imputer operates on a copy: the caller object is returned
unchanged by the call, whatever the returned table looks like. -/
theorem C9_zero_imputer_no_mutation (t : Table) :
    (replace_zeros_with_mean_call t).2 = t ∧
    (replace_zeros_with_mean_call t).1 = replace_zeros_with_mean t :=
  ⟨rfl, rfl⟩

/-- C8: in the post-accumulation transforms of the global commodity loader,
"1.5K" parses to 1500, "2.3%" parses to 2.3, and the coercion of the four
price-like columns never raises: it is total over the cells, an unparseable
string becoming missing. -/
theorem C8_parsing_transforms :
    transformVolCell (some (.vstr "1.5K")) = .ok (some (.num 1500)) ∧
    transformPctCell (some (.vstr "2.3%")) = .ok (some (.num ((23 : ℚ) / 10))) ∧
    (∀ t jp jo jh jl, colIdx t "Price" = some jp → colIdx t "Open" = some jo →
      colIdx t "High" = some jh → colIdx t "Low" = some jl →
      ∃ out, coercePriceCols t = .ok out) ∧
    (∀ s : String, parseFloat? s = none → toNumericCoerceCell (some (.vstr s)) = none) := by
  refine ⟨by with_unfolding_all decide, by with_unfolding_all decide, ?_, ?_⟩
  · intro t jp jo jh jl hp ho hh hl
    rw [coercePriceCols, hp, ho, hh, hl]
    exact ⟨_, rfl⟩
  · intro s h
    rw [toNumericCoerceCell, h]
    rfl

/-- C8 witness: the totality branch applied to a concrete table holding the
unparseable string "abc" in every price-like column. -/
theorem C8_parsing_transforms_witness :
    parseFloat? "abc" = none ∧
    toNumericCoerceCell (some (.vstr "abc")) = none ∧
    (∃ out, coercePriceCols (⟨["Price", "Open", "High", "Low"],
      [[some (.vstr "abc"), none, none, none]]⟩ : Table) = .ok out) :=
  ⟨by decide,
   C8_parsing_transforms.2.2.2 "abc" (by decide),
   C8_parsing_transforms.2.2.1 (⟨["Price", "Open", "High", "Low"],
     [[some (.vstr "abc"), none, none, none]]⟩ : Table) 0 1 2 3
     (by decide) (by decide) (by decide) (by decide)⟩

/-- C2: the global commodity aggregation groups by date: the output has one
row per distinct non-missing date, and the row of each date carries the mean
of the Open cells of the rows sharing that date, the max of their High
cells, the min of their Low cells, the sum of their Vol. cells, and the
means of their Change % and Price cells. -/
theorem C2_global_aggregation (t out : Table) (jD jO jH jL jV jC jP jCm : ℕ)
    (hD : colIdx t "Date" = some jD) (hO : colIdx t "Open" = some jO)
    (hH : colIdx t "High" = some jH) (hL : colIdx t "Low" = some jL)
    (hV : colIdx t "Vol." = some jV) (hC : colIdx t "Change %" = some jC)
    (hP : colIdx t "Price" = some jP) (hCm : colIdx t "Commodity" = some jCm)
    (hok : groupbyAggDate t = .ok out) :
    out.rows.length = (dedupFirst (dateValsAt t jD)).length ∧
    ∀ v : Val, 0 < t.rows.countP (fun r => cellAt r jD == some v) →
      out.rows.countP (fun r => cellAt r 0 == some v) = 1 ∧
      ∀ ro ∈ out.rows, cellAt ro 0 = some v →
        ro = [some v,
          meanCells (colProj (t.rows.filter (fun r => cellAt r jD == some v)) jO),
          maxCells (colProj (t.rows.filter (fun r => cellAt r jD == some v)) jH),
          minCells (colProj (t.rows.filter (fun r => cellAt r jD == some v)) jL),
          sumCells (colProj (t.rows.filter (fun r => cellAt r jD == some v)) jV),
          meanCells (colProj (t.rows.filter (fun r => cellAt r jD == some v)) jC),
          meanCells (colProj (t.rows.filter (fun r => cellAt r jD == some v)) jP),
          joinSetStr (colProj (t.rows.filter (fun r => cellAt r jD == some v)) jCm)] := by
  rw [groupbyAggDate, hD, hO, hH, hL, hV, hC, hP, hCm] at hok
  cases hok
  have hperm := pg_sortByB_perm valLeB (dedupFirst (dateValsAt t jD))
  have hnd : (sortByB valLeB (dedupFirst (dateValsAt t jD))).Nodup :=
    hperm.nodup_iff.mpr (pg_nodup_dedupFirst _)
  constructor
  · simpa using hperm.length_eq
  · intro v hv
    obtain ⟨r0, hr0, hp0⟩ := List.countP_pos_iff.mp hv
    have hcell : cellAt r0 jD = some v := by simpa using hp0
    have hmemk : v ∈ sortByB valLeB (dedupFirst (dateValsAt t jD)) := by
      rw [hperm.mem_iff, pg_mem_dedupFirst]
      rw [dateValsAt]
      refine List.mem_filterMap.mpr ⟨some v, ?_, rfl⟩
      rw [colProj]
      exact hcell ▸ List.mem_map_of_mem (fun r => cellAt r jD) hr0
    constructor
    · show ((sortByB valLeB (dedupFirst (dateValsAt t jD))).map
        (aggRow t jD jO jH jL jV jC jP jCm)).countP _ = 1
      rw [List.countP_map]
      have hcong : ∀ k ∈ sortByB valLeB (dedupFirst (dateValsAt t jD)),
          ((fun r => cellAt r 0 == some v) ∘ aggRow t jD jO jH jL jV jC jP jCm) k =
          (k == v) := by
        intro k _
        show (cellAt (aggRow t jD jO jH jL jV jC jP jCm k) 0 == some v) = (k == v)
        rw [show cellAt (aggRow t jD jO jH jL jV jC jP jCm k) 0 = some k from rfl]
        cases hkv : k == v with
        | true => simp [beq_iff_eq.mp hkv]
        | false =>
          have : k ≠ v := by simpa using (by exact fun h => by simp [h] at hkv)
          simp [this]
      have hcong2 : ∀ k ∈ sortByB valLeB (dedupFirst (dateValsAt t jD)),
          (((fun r => cellAt r 0 == some v) ∘ aggRow t jD jO jH jL jV jC jP jCm) k = true ↔
            (fun k => k == v) k = true) := by
        intro k hk
        rw [hcong k hk]
      rw [List.countP_congr hcong2]
      exact List.count_eq_one_of_mem hnd hmemk
    · intro ro hro hro0
      obtain ⟨k, hk, hke⟩ := List.mem_map.mp hro
      have : cellAt ro 0 = some k := by
        rw [← hke]
        rfl
      rw [this] at hro0
      cases hro0
      rw [← hke]
      rfl

/-- C2 witness: two rows sharing date 7 with Open 10 and 20 aggregate into
one output row; the theorem instantiated there yields the one-row-per-date
count. -/
theorem C2_global_aggregation_witness :
    (0 < (⟨["Date", "Open", "High", "Low", "Vol.", "Change %", "Price", "Commodity"],
      [[some (.date 7), some (.num 10), some (.num 5), some (.num 3),
        some (.num 100), some (.num 1), some (.num 10), some (.vstr "a")],
       [some (.date 7), some (.num 20), some (.num 8), some (.num 2),
        some (.num 200), some (.num 3), some (.num 30), some (.vstr "b")]]⟩ :
      Table).rows.countP (fun r => cellAt r 0 == some (.date 7))) ∧
    (⟨["Date", "Open", "High", "Low", "Vol.", "Change %", "Price", "Commodity"],
      [[some (.date 7), some (.num 15), some (.num 8), some (.num 2),
        some (.num 300), some (.num 2), some (.num 20), some (.vstr "a, b")]]⟩ :
      Table).rows.countP (fun r => cellAt r 0 == some (.date 7)) = 1 :=
  ⟨by decide,
   ((C2_global_aggregation
     (⟨["Date", "Open", "High", "Low", "Vol.", "Change %", "Price", "Commodity"],
       [[some (.date 7), some (.num 10), some (.num 5), some (.num 3),
         some (.num 100), some (.num 1), some (.num 10), some (.vstr "a")],
        [some (.date 7), some (.num 20), some (.num 8), some (.num 2),
         some (.num 200), some (.num 3), some (.num 30), some (.vstr "b")]]⟩ :
       Table)
     (⟨["Date", "Open", "High", "Low", "Vol.", "Change %", "Price", "Commodity"],
       [[some (.date 7), some (.num 15), some (.num 8), some (.num 2),
         some (.num 300), some (.num 2), some (.num 20), some (.vstr "a, b")]]⟩ :
       Table)
     0 1 2 3 4 5 6 7 (by decide) (by decide) (by decide) (by decide)
     (by decide) (by decide) (by decide) (by decide)
     (by with_unfolding_all decide)).2 (.date 7) (by decide)).1⟩

/-- C10: on success, fill_missing_dates has parsed the Date column of the
caller object in place, left every other cell of the caller object
unchanged and added no row to it; the completed gap-filled range lives only
in the returned fresh table built from the merge. -/
theorem C10_date_normalizer_mutation (df ret after : Table) (startD endD j : ℕ)
    (hwf : wf df) (hj : colIdx df "Date" = some j)
    (hok : fill_missing_dates_call df startD endD = .ok (ret, after)) :
    after.cols = df.cols ∧ after.rows.length = df.rows.length ∧
    (∀ i r, df.rows.get? i = some r → ∃ r2,
      after.rows.get? i = some r2 ∧
      (∀ j2, j2 ≠ j → cellAt r2 j2 = cellAt r j2) ∧
      ∃ c, toDatetimeCell (cellAt r j) = .ok c ∧ cellAt r2 j = c) ∧
    ret = bfillT (ffillT (leftMergeFullDates startD endD after j)) := by
  have hred : fill_missing_dates_call df startD endD =
      match parseDateColAt j df with
      | .error e => .error e
      | .ok dfP =>
          .ok (bfillT (ffillT (leftMergeFullDates startD endD dfP j)), dfP) := by
    rw [fill_missing_dates_call, hj]
  rw [hred] at hok
  cases hp : parseDateColAt j df with
  | error e =>
    rw [hp] at hok
    exact absurd hok (by simp)
  | ok dfP =>
    rw [hp] at hok
    simp only [Except.ok.injEq, Prod.mk.injEq] at hok
    obtain ⟨hret, hafter⟩ := hok
    subst hret
    subst hafter
    rw [parseDateColAt] at hp
    cases hm : mapE (fun r => (toDatetimeCell (cellAt r j)).map (fun c => r.set j c))
        df.rows with
    | error e =>
      rw [hm] at hp
      exact absurd hp (by simp [Except.map])
    | ok rows2 =>
      rw [hm] at hp
      simp only [Except.map, Except.ok.injEq] at hp
      obtain ⟨hlen, hget⟩ := pg_mapE_ok hm
      subst hp
      refine ⟨rfl, hlen, ?_, rfl⟩
      intro i r hr
      obtain ⟨r2, hfr, hr2⟩ := hget i r hr
      cases htc : toDatetimeCell (cellAt r j) with
      | error e =>
        rw [htc] at hfr
        exact absurd hfr (by simp [Except.map])
      | ok c =>
        rw [htc] at hfr
        simp only [Except.map, Except.ok.injEq] at hfr
        subst hfr
        refine ⟨r.set j c, hr2, ?_, c, rfl, ?_⟩
        · intro j2 hj2
          exact pg_getD_set_ne (Ne.symm hj2)
        · refine pg_getD_set_eq ?_
          rw [hwf r (List.get?_mem hr)]
          exact pg_colIdx_lt hj

/-- C10 witness: a one-row table with a string date; after the call the
caller object has the parsed date and the untouched observation cell. -/
theorem C10_date_normalizer_mutation_witness :
    wf (⟨["Date", "X"], [[some (.vstr "4"), some (.num 9)]]⟩ : Table) ∧
    (∃ r2, (⟨["Date", "X"], [[some (.date 4), some (.num 9)]]⟩ : Table).rows.get? 0 =
        some r2 ∧
      (∀ j2, j2 ≠ 0 → cellAt r2 j2 =
        cellAt [some (.vstr "4"), some (.num 9)] j2) ∧
      ∃ c, toDatetimeCell (cellAt [some (.vstr "4"), some (.num 9)] 0) = .ok c ∧
        cellAt r2 0 = c) :=
  ⟨by decide,
   (C10_date_normalizer_mutation
     (⟨["Date", "X"], [[some (.vstr "4"), some (.num 9)]]⟩ : Table)
     (bfillT (ffillT (leftMergeFullDates 3 5
       (⟨["Date", "X"], [[some (.date 4), some (.num 9)]]⟩ : Table) 0)))
     (⟨["Date", "X"], [[some (.date 4), some (.num 9)]]⟩ : Table)
     3 5 0 (by decide) (by decide)
     (by with_unfolding_all decide)).2.2.1 0
     [some (.vstr "4"), some (.num 9)] (by decide)⟩

/-! ### Facts about fill_missing_dates -/

theorem pg_countDate (rows : List (List (Option Val))) (j : ℕ) (v : Val) :
    rows.countP (fun r => cellAt r j == some v) =
      ((colProj rows j).filterMap id).count v := by
  induction rows with
  | nil => rfl
  | cons r rs ih =>
    rw [List.countP_cons, colProj, List.map_cons, List.filterMap_cons]
    cases hc : cellAt r j with
    | none =>
      rw [show ((none : Option Val) == some v) = false from rfl]
      simpa [colProj] using ih
    | some w =>
      by_cases hw : w = v
      · subst hw
        rw [show ((some w == some w)) = true by simp]
        simp [colProj, List.count_cons, ih]
      · have hb : ((some w : Option Val) == some v) = false := by
          simp [hw]
        rw [hb]
        simp [colProj, List.count_cons, ih, hw]

theorem pg_colProj_flatten (L : List (List (List (Option Val)))) (j : ℕ) :
    colProj L.flatten j = (L.map (fun l => colProj l j)).flatten :=
  List.map_flatten _ _

theorem pg_ffillRows_mem_length {j : ℕ} :
    ∀ {rows : List (List (Option Val))} {carry : List (Option Val)},
      (∀ r ∈ rows, j < r.length) →
      ∀ rr ∈ ffillRows carry rows, j < rr.length := by
  intro rows
  induction rows with
  | nil => intro carry _ rr hrr; simp [ffillRows] at hrr
  | cons r rs ih =>
    intro carry h rr hrr
    rw [ffillRows] at hrr
    rcases List.mem_cons.mp hrr with hrr | hrr
    · rw [hrr, pg_fillMissing_length]
      exact h r (List.mem_cons_self _ _)
    · exact ih (fun x hx => h x (List.mem_cons_of_mem _ hx)) rr hrr

theorem pg_colProj_afterFB {rows : List (List (Option Val))} {j : ℕ}
    (h : ∀ r ∈ rows, j < r.length) :
    colProj ((ffillRows [] (ffillRows [] rows).reverse).reverse) j =
      afterFB (colProj rows j) := by
  have h1 : ∀ r ∈ (ffillRows [] rows).reverse, j < r.length := by
    intro r hr
    exact pg_ffillRows_mem_length h r (List.mem_reverse.mp hr)
  rw [pg_colProj_reverse, pg_colProj_ffillRows h1, pg_colProj_reverse,
    pg_colProj_ffillRows h, afterFB]
  rfl

theorem pg_merge_count_le_one {t : Table} {j : ℕ} {v : Val}
    (hnd : ((colProj t.rows j).filterMap id).Nodup) :
    t.rows.countP (fun r => cellAt r j == some v) ≤ 1 := by
  rw [pg_countDate]
  exact List.nodup_iff_count_le_one.mp hnd v

theorem pg_leftMerge_rows (S E : ℕ) (t : Table) (j : ℕ) :
    (leftMergeFullDates S E t j).rows =
      ((dateRange S E).map (fun d =>
        if (t.rows.filter (fun r => cellAt r j == some (.date d))).isEmpty then
          [some (.date d) :: List.replicate (t.cols.eraseIdx j).length none]
        else
          (t.rows.filter (fun r => cellAt r j == some (.date d))).map
            (fun r => some (.date d) :: r.eraseIdx j))).flatten := rfl

theorem pg_leftMerge_block_len {t : Table} {j : ℕ} (d : ℕ)
    (hnd : ((colProj t.rows j).filterMap id).Nodup) :
    (if (t.rows.filter (fun r => cellAt r j == some (.date d))).isEmpty then
      [some (.date d) :: List.replicate (t.cols.eraseIdx j).length none]
    else
      (t.rows.filter (fun r => cellAt r j == some (.date d))).map
        (fun r => some (.date d) :: r.eraseIdx j)).length = 1 := by
  cases hE : (t.rows.filter (fun r => cellAt r j == some (.date d))).isEmpty with
  | true => simp
  | false =>
    rw [if_neg (by simp [hE])]
    rw [List.length_map]
    have hle : (t.rows.filter (fun r => cellAt r j == some (.date d))).length ≤ 1 := by
      rw [← List.countP_eq_length_filter]
      exact pg_merge_count_le_one hnd
    have hpos : 0 < (t.rows.filter (fun r => cellAt r j == some (.date d))).length := by
      cases hL : (t.rows.filter (fun r => cellAt r j == some (.date d))) with
      | nil => rw [hL] at hE; simp at hE
      | cons a as => simp
    omega

theorem pg_leftMerge_length {S E : ℕ} {t : Table} {j : ℕ}
    (hnd : ((colProj t.rows j).filterMap id).Nodup) :
    (leftMergeFullDates S E t j).rows.length = dayCount S E := by
  rw [pg_leftMerge_rows, pg_length_flatten, List.map_map]
  have hone : ∀ d ∈ dateRange S E,
      (List.length ∘ (fun d =>
        if (t.rows.filter (fun r => cellAt r j == some (.date d))).isEmpty then
          [some (.date d) :: List.replicate (t.cols.eraseIdx j).length none]
        else
          (t.rows.filter (fun r => cellAt r j == some (.date d))).map
            (fun r => some (.date d) :: r.eraseIdx j))) d = (fun _ => (1 : ℕ)) d := by
    intro d _
    exact pg_leftMerge_block_len d hnd
  rw [List.map_congr_left hone, pg_sum_ones]
  simp [dateRange, dayCount]

theorem pg_leftMerge_dateCol {S E : ℕ} {t : Table} {j : ℕ}
    (hnd : ((colProj t.rows j).filterMap id).Nodup) :
    colProj (leftMergeFullDates S E t j).rows 0 =
      (dateRange S E).map (fun d => some (.date d)) := by
  have hsing := pg_flatten_singletons (l := dateRange S E)
    (g := fun d => some (Val.date d))
  rw [pg_leftMerge_rows, pg_colProj_flatten, List.map_map, ← hsing]
  refine congrArg List.flatten (List.map_congr_left ?_)
  intro d _
  show colProj
    (if (t.rows.filter (fun r => cellAt r j == some (.date d))).isEmpty then
      [some (.date d) :: List.replicate (t.cols.eraseIdx j).length none]
    else
      (t.rows.filter (fun r => cellAt r j == some (.date d))).map
        (fun r => some (.date d) :: r.eraseIdx j)) 0 = [some (.date d)]
  cases hE : (t.rows.filter (fun r => cellAt r j == some (.date d))).isEmpty with
  | true =>
    rw [if_pos (by simp [hE])]
    rfl
  | false =>
    rw [if_neg (by simp [hE])]
    rw [colProj, List.map_map]
    have : ∀ r ∈ t.rows.filter (fun r => cellAt r j == some (.date d)),
        ((fun r => cellAt r 0) ∘ (fun r => some (.date d) :: r.eraseIdx j)) r =
        (fun _ => some (Val.date d)) r := by
      intro r _
      rfl
    rw [List.map_congr_left this]
    cases hL : (t.rows.filter (fun r => cellAt r j == some (.date d))) with
    | nil => rw [hL] at hE; simp at hE
    | cons a as =>
      cases as with
      | nil => rfl
      | cons b bs =>
        exfalso
        have hle := pg_merge_count_le_one (t := t) (j := j) (v := .date d) hnd
        rw [List.countP_eq_length_filter, hL] at hle
        simp only [List.length_cons] at hle
        omega

theorem pg_parseDateColAt_ok {df dfP : Table} {j : ℕ}
    (hp : parseDateColAt j df = .ok dfP) :
    dfP.cols = df.cols ∧ dfP.rows.length = df.rows.length ∧
    ∀ i r, df.rows.get? i = some r → ∃ c,
      toDatetimeCell (cellAt r j) = .ok c ∧ dfP.rows.get? i = some (r.set j c) := by
  rw [parseDateColAt] at hp
  cases hm : mapE (fun r => (toDatetimeCell (cellAt r j)).map (fun c => r.set j c))
      df.rows with
  | error e =>
    rw [hm] at hp
    exact absurd hp (by simp [Except.map])
  | ok rows2 =>
    rw [hm] at hp
    simp only [Except.map, Except.ok.injEq] at hp
    subst hp
    obtain ⟨hlen, hget⟩ := pg_mapE_ok hm
    refine ⟨rfl, hlen, ?_⟩
    intro i r hr
    obtain ⟨r2, hfr, hr2⟩ := hget i r hr
    cases htc : toDatetimeCell (cellAt r j) with
    | error e =>
      rw [htc] at hfr
      exact absurd hfr (by simp [Except.map])
    | ok c =>
      rw [htc] at hfr
      simp only [Except.map, Except.ok.injEq] at hfr
      subst hfr
      exact ⟨c, rfl, hr2⟩

theorem pg_parseDateColAt_wf {df dfP : Table} {j : ℕ} (hwf : wf df)
    (hp : parseDateColAt j df = .ok dfP) : wf dfP := by
  obtain ⟨hcols, hlen, hpt⟩ := pg_parseDateColAt_ok hp
  intro r2 hr2
  obtain ⟨i, hi⟩ := List.mem_iff_get?.mp hr2
  cases hdr : df.rows.get? i with
  | none =>
    rw [List.get?_eq_none] at hdr
    have hnone : dfP.rows.get? i = none := List.get?_eq_none.mpr (by omega)
    rw [hnone] at hi
    exact absurd hi (by simp)
  | some r =>
    obtain ⟨c, _, hset⟩ := hpt i r hdr
    rw [hi] at hset
    cases hset
    rw [List.length_set, hcols]
    exact hwf r (List.get?_mem hdr)

theorem pg_leftMerge_row_len {S E : ℕ} {t : Table} {j : ℕ} (hwf : wf t)
    (hj : j < t.cols.length) :
    ∀ rr ∈ (leftMergeFullDates S E t j).rows, rr.length = t.cols.length := by
  intro rr hrr
  rw [pg_leftMerge_rows, List.mem_flatten] at hrr
  obtain ⟨bl, hbl, hrbl⟩ := hrr
  rw [List.mem_map] at hbl
  obtain ⟨d, _, hde⟩ := hbl
  subst hde
  by_cases hE : (t.rows.filter (fun r => cellAt r j == some (.date d))).isEmpty
  · rw [if_pos hE] at hrbl
    rcases List.mem_singleton.mp hrbl with rfl
    rw [List.length_cons, List.length_replicate, List.length_eraseIdx]
    simp only [hj, if_pos]
    omega
  · rw [if_neg hE] at hrbl
    rw [List.mem_map] at hrbl
    obtain ⟨r, hrf, hre⟩ := hrbl
    subst hre
    have hrmem := List.mem_of_mem_filter hrf
    have hrlen := hwf r hrmem
    rw [List.length_cons, List.length_eraseIdx]
    rw [hrlen]
    simp only [hj, if_pos]
    omega

/-- C1 (amended): for a rectangular input table with a Date column whose
parsed date values are pairwise distinct, fill_missing_dates succeeds with
exactly one row per calendar day of [startD, endD], the Date column equal to
that ascending day sequence, and no missing value left in any column that
had at least one non-missing value at some input row whose parsed date lies
within the range.  (As frozen the claim is false: duplicate input dates
multiply rows through the left merge, and a value carried only at a date
outside the range is discarded; see the counterexample.) -/
theorem C1_date_normalizer_amended (df out : Table) (startD endD j : ℕ)
    (hwf : wf df) (hj : colIdx df "Date" = some j)
    (hok : fill_missing_dates df startD endD = .ok out)
    (hnd : (parsedDates df).Nodup) :
    out.rows.length = dayCount startD endD ∧
    colProj out.rows 0 = (dateRange startD endD).map (fun d => some (.date d)) ∧
    (∀ j0, j0 < df.cols.length → j0 ≠ j →
      (∃ i r d, df.rows.get? i = some r ∧
        toDatetimeCell (cellAt r j) = .ok (some (.date d)) ∧
        startD ≤ d ∧ d ≤ endD ∧ (cellAt r j0).isSome = true) →
      ((colProj out.rows (if j0 < j then j0 + 1 else j0)).all
        fun x => x.isSome) = true) := by
  rw [fill_missing_dates] at hok
  have hred : fill_missing_dates_call df startD endD =
      match parseDateColAt j df with
      | .error e => .error e
      | .ok dfP =>
          .ok (bfillT (ffillT (leftMergeFullDates startD endD dfP j)), dfP) := by
    rw [fill_missing_dates_call, hj]
  rw [hred] at hok
  cases hp : parseDateColAt j df with
  | error e =>
    rw [hp] at hok
    exact absurd hok (by simp [Except.map])
  | ok dfP =>
    rw [hp] at hok
    simp only [Except.map, Except.ok.injEq] at hok
    subst hok
    have hndP : ((colProj dfP.rows j).filterMap id).Nodup := by
      have heq : parsedDates df = (colProj dfP.rows j).filterMap id := by
        simp only [parsedDates, hj, hp]
      rwa [heq] at hnd
    obtain ⟨hcolsP, hlenP, hpt⟩ := pg_parseDateColAt_ok hp
    have hwfP : wf dfP := pg_parseDateColAt_wf hwf hp
    have hjlt : j < dfP.cols.length := by
      rw [hcolsP]
      exact pg_colIdx_lt hj
    have hrowlen : ∀ rr ∈ (leftMergeFullDates startD endD dfP j).rows,
        rr.length = dfP.cols.length := pg_leftMerge_row_len hwfP hjlt
    refine ⟨?_, ?_, ?_⟩
    · show ((ffillRows []
        (ffillRows [] (leftMergeFullDates startD endD dfP j).rows).reverse).reverse).length = _
      rw [List.length_reverse, pg_ffillRows_length, List.length_reverse,
        pg_ffillRows_length]
      exact pg_leftMerge_length hndP
    · have h0 : ∀ r ∈ (leftMergeFullDates startD endD dfP j).rows, 0 < r.length := by
        intro r hr
        rw [hrowlen r hr]
        omega
      show colProj ((ffillRows []
        (ffillRows [] (leftMergeFullDates startD endD dfP j).rows).reverse).reverse) 0 = _
      rw [pg_colProj_afterFB h0, pg_leftMerge_dateCol hndP]
      refine pg_afterFB_of_all_some ?_
      rw [List.all_eq_true]
      intro x hx
      rw [List.mem_map] at hx
      obtain ⟨d, _, hdx⟩ := hx
      rw [← hdx]
      rfl
    · intro j0 hj0lt hj0ne hex
      obtain ⟨i, r, d, hget, htc, hdS, hdE, hsome⟩ := hex
      obtain ⟨c, htc2, hgetP⟩ := hpt i r hget
      have hc : c = some (.date d) := by
        rw [htc] at htc2
        cases htc2
        rfl
      subst hc
      have hr2mem : r.set j (some (.date d)) ∈ dfP.rows :=
        List.mem_iff_get?.mpr ⟨i, hgetP⟩
      have hrlen : r.length = df.cols.length := hwf r (List.get?_mem hget)
      have hjr : j < r.length := by
        rw [hrlen]
        exact pg_colIdx_lt hj
      have hcell : cellAt (r.set j (some (.date d))) j = some (.date d) :=
        pg_getD_set_eq hjr
      have hcell0 : cellAt (r.set j (some (.date d))) j0 = cellAt r j0 :=
        pg_getD_set_ne (Ne.symm hj0ne)
      have hdmem : d ∈ dateRange startD endD := by
        rw [dateRange, List.mem_range'_1]
        omega
      have hr2filter : r.set j (some (.date d)) ∈
          dfP.rows.filter (fun rr => cellAt rr j == some (.date d)) := by
        refine List.mem_filter.mpr ⟨hr2mem, ?_⟩
        rw [hcell]
        simp
      have hrowd : (some (Val.date d) :: (r.set j (some (.date d))).eraseIdx j) ∈
          (leftMergeFullDates startD endD dfP j).rows := by
        rw [pg_leftMerge_rows, List.mem_flatten]
        refine ⟨_, List.mem_map_of_mem _ hdmem, ?_⟩
        rw [if_neg ?_]
        · exact List.mem_map_of_mem _ hr2filter
        · intro hemp
          rw [List.isEmpty_iff] at hemp
          rw [hemp] at hr2filter
          simp at hr2filter
      have hcellmj : cellAt (some (Val.date d) :: (r.set j (some (.date d))).eraseIdx j)
          (if j0 < j then j0 + 1 else j0) = cellAt r j0 := by
        by_cases hlt : j0 < j
        · rw [if_pos hlt, cellAt, List.getD_cons_succ]
          rw [show ((r.set j (some (.date d))).eraseIdx j).getD j0 none =
            (r.set j (some (.date d))).getD j0 none from pg_getD_eraseIdx_lt hlt]
          exact hcell0
        · have hgt : j < j0 := by omega
          rw [if_neg hlt]
          obtain ⟨m, rfl⟩ : ∃ m, j0 = m + 1 := ⟨j0 - 1, by omega⟩
          rw [cellAt, List.getD_cons_succ]
          rw [show ((r.set j (some (.date d))).eraseIdx j).getD m none =
            (r.set j (some (.date d))).getD (m + 1) none from
            pg_getD_eraseIdx_ge (by omega)]
          exact hcell0
      have hany : ((colProj (leftMergeFullDates startD endD dfP j).rows
          (if j0 < j then j0 + 1 else j0)).any fun x => x.isSome) = true := by
        rw [List.any_eq_true]
        refine ⟨cellAt (some (Val.date d) :: (r.set j (some (.date d))).eraseIdx j)
          (if j0 < j then j0 + 1 else j0), List.mem_map_of_mem _ hrowd, ?_⟩
        rw [hcellmj]
        exact hsome
      have hmjlt : ∀ rr ∈ (leftMergeFullDates startD endD dfP j).rows,
          (if j0 < j then j0 + 1 else j0) < rr.length := by
        intro rr hrr
        rw [hrowlen rr hrr, hcolsP]
        by_cases hlt : j0 < j
        · rw [if_pos hlt]
          have := pg_colIdx_lt hj
          omega
        · rw [if_neg hlt]
          omega
      show ((colProj ((ffillRows []
        (ffillRows [] (leftMergeFullDates startD endD dfP j).rows).reverse).reverse)
        (if j0 < j then j0 + 1 else j0)).all fun x => x.isSome) = true
      rw [pg_colProj_afterFB hmjlt]
      exact pg_afterFB_all_some hany

/-- C1 counterexample: the claim as frozen fails on a table that carries two
rows for day 0 and one row dated outside the range [0, 1].  The output of
the Date Normalizer has three rows, not the two calendar days of the range,
and column Y (position 2) keeps missing values in the output although it
held a non-missing value somewhere in the original series. -/
theorem C1_date_normalizer_counterexample :
    ¬ ((fill_missing_dates (⟨["Date", "X", "Y"],
        [[some (.date 0), some (.num 1), none],
         [some (.date 0), some (.num 2), none],
         [some (.date 5), none, some (.num 7)]]⟩ : Table) 0 1).map
          (fun t => t.rows.length) = .ok (dayCount 0 1) ∧
       (fill_missing_dates (⟨["Date", "X", "Y"],
        [[some (.date 0), some (.num 1), none],
         [some (.date 0), some (.num 2), none],
         [some (.date 5), none, some (.num 7)]]⟩ : Table) 0 1).map
          (fun t => (colProj t.rows 2).all fun c => c.isSome) = .ok true) ∧
    (fill_missing_dates (⟨["Date", "X", "Y"],
        [[some (.date 0), some (.num 1), none],
         [some (.date 0), some (.num 2), none],
         [some (.date 5), none, some (.num 7)]]⟩ : Table) 0 1).map
      (fun t => t.rows.length) = .ok 3 ∧
    dayCount 0 1 = 2 ∧
    (∃ r ∈ (⟨["Date", "X", "Y"],
        [[some (.date 0), some (.num 1), none],
         [some (.date 0), some (.num 2), none],
         [some (.date 5), none, some (.num 7)]]⟩ : Table).rows,
      (cellAt r 2).isSome = true) := by
  decide

/-- C1 witness: the amended theorem applied to a one-row table with a date
inside the range. -/
theorem C1_date_normalizer_amended_witness :
    fill_missing_dates (⟨["Date", "X"], [[some (.date 1), some (.num 4)]]⟩ : Table)
        0 2 =
      .ok (⟨["Date", "X"],
        [[some (.date 0), some (.num 4)],
         [some (.date 1), some (.num 4)],
         [some (.date 2), some (.num 4)]]⟩ : Table) ∧
    (⟨["Date", "X"],
      [[some (.date 0), some (.num 4)],
       [some (.date 1), some (.num 4)],
       [some (.date 2), some (.num 4)]]⟩ : Table).rows.length = dayCount 0 2 ∧
    colProj (⟨["Date", "X"],
      [[some (.date 0), some (.num 4)],
       [some (.date 1), some (.num 4)],
       [some (.date 2), some (.num 4)]]⟩ : Table).rows 0 =
      (dateRange 0 2).map (fun d => some (.date d)) := by
  have h := C1_date_normalizer_amended
    (⟨["Date", "X"], [[some (.date 1), some (.num 4)]]⟩ : Table)
    (⟨["Date", "X"],
      [[some (.date 0), some (.num 4)],
       [some (.date 1), some (.num 4)],
       [some (.date 2), some (.num 4)]]⟩ : Table)
    0 2 0 (by decide) (by decide) (by decide) (by decide)
  exact ⟨by decide, h.1, h.2.1⟩

/-! ### Facts about the outer merge of the Dataset Assembler -/

theorem pg_lt_of_cellAt_some {r : List (Option Val)} {j : ℕ} {v : Val}
    (h : cellAt r j = some v) : j < r.length := by
  by_contra hc
  rw [cellAt, List.getD_eq_default] at h
  · exact Option.noConfusion h
  · omega

theorem pg_sum_if (l : List α) (p : α → Bool) (n : ℕ) :
    ((l.map (fun a => if p a then n else 0)).sum) = l.countP p * n := by
  induction l with
  | nil => simp
  | cons a as ih =>
    rw [List.map_cons, List.sum_cons, ih, List.countP_cons]
    by_cases hp : p a
    · rw [if_pos hp, if_pos hp]
      ring
    · rw [if_neg hp, if_neg hp]
      ring

theorem pg_two_le_length_of_mem_ne {a b : α} :
    ∀ {l : List α}, a ∈ l → b ∈ l → a ≠ b → 2 ≤ l.length := by
  intro l
  induction l with
  | nil => intro ha; simp at ha
  | cons x xs ih =>
    intro ha hb hab
    rcases List.mem_cons.mp ha with rfl | ha2
    · rcases List.mem_cons.mp hb with rfl | hb2
      · exact absurd rfl hab
      · have : xs ≠ [] := List.ne_nil_of_mem hb2
        cases xs with
        | nil => exact absurd rfl this
        | cons y ys => simp only [List.length_cons]; omega
    · rcases List.mem_cons.mp hb with rfl | hb2
      · have : xs ≠ [] := List.ne_nil_of_mem ha2
        cases xs with
        | nil => exact absurd rfl this
        | cons y ys => simp only [List.length_cons]; omega
      · have := ih ha2 hb2 hab
        simp only [List.length_cons]
        omega

theorem pg_mapE_id {f : α → Except Unit α} :
    ∀ {l : List α}, (∀ a ∈ l, f a = .ok a) → mapE f l = .ok l := by
  intro l
  induction l with
  | nil => intro _; rfl
  | cons a as ih =>
    intro h
    rw [mapE, h a (List.mem_cons_self _ _), ih (fun x hx => h x (List.mem_cons_of_mem _ hx))]

theorem pg_parseDateCol_id {t : Table} {j : ℕ} (hj : colIdx t "Date" = some j)
    (hd : ∀ r ∈ t.rows, ∃ d, cellAt r j = some (.date d)) :
    parseDateCol t = .ok t := by
  have hred : parseDateCol t = parseDateColAt j t := by
    rw [parseDateCol, hj]
  rw [hred, parseDateColAt]
  have hm : mapE (fun r => (toDatetimeCell (cellAt r j)).map (fun c => r.set j c))
      t.rows = .ok t.rows := by
    refine pg_mapE_id ?_
    intro r hr
    obtain ⟨d, hcell⟩ := hd r hr
    rw [hcell]
    rw [show toDatetimeCell (some (.date d)) = .ok (some (.date d)) from rfl]
    rw [show Except.map (fun c => r.set j c)
      (Except.ok (some (Val.date d))) = .ok (r.set j (some (.date d))) from rfl]
    rw [← hcell]
    rw [show cellAt r j = r.getD j none from rfl, pg_set_getD_self]
  rw [hm]
  rfl

theorem pg_mergeMatches_eq {r : Table} {jl jr : ℕ} {lr : List (Option Val)} {v : Val}
    (hcell : cellAt lr jl = some v) :
    mergeMatches r jl jr lr = r.rows.filter (fun rr => cellAt rr jr == some v) := by
  rw [mergeMatches, hcell]
  simp

theorem pg_block_prefix {r : Table} {jl jr : ℕ} {lr ro : List (Option Val)}
    (hro : ro ∈ mergeBlock r jl jr lr) : ∃ X, ro = lr ++ X := by
  rw [mergeBlock] at hro
  by_cases hE : (mergeMatches r jl jr lr).isEmpty
  · rw [if_pos hE] at hro
    rcases List.mem_singleton.mp hro with rfl
    exact ⟨_, rfl⟩
  · rw [if_neg hE] at hro
    rw [List.mem_map] at hro
    obtain ⟨rr, _, rfl⟩ := hro
    exact ⟨_, rfl⟩

theorem pg_block_cell {r : Table} {jl jr : ℕ} {lr ro : List (Option Val)} {v : Val}
    (hcell : cellAt lr jl = some v) (hro : ro ∈ mergeBlock r jl jr lr) :
    cellAt ro jl = some v := by
  obtain ⟨X, rfl⟩ := pg_block_prefix hro
  rw [cellAt, pg_getD_append_left (pg_lt_of_cellAt_some hcell)]
  exact hcell

theorem pg_block_count_eq {r : Table} {jl jr : ℕ} {lr : List (Option Val)} {d : ℕ}
    (hcell : cellAt lr jl = some (.date d)) :
    (mergeBlock r jl jr lr).countP (fun ro => cellAt ro jl == some (.date d)) =
      max 1 (r.rows.countP (fun rr => cellAt rr jr == some (.date d))) := by
  have hms := @pg_mergeMatches_eq r jl jr lr _ hcell
  have hall : (mergeBlock r jl jr lr).countP
      (fun ro => cellAt ro jl == some (.date d)) = (mergeBlock r jl jr lr).length := by
    rw [List.countP_eq_length]
    intro ro hro
    rw [pg_block_cell hcell hro]
    simp
  rw [hall, mergeBlock]
  by_cases hE : (mergeMatches r jl jr lr).isEmpty
  · rw [if_pos hE]
    have h0 : r.rows.countP (fun rr => cellAt rr jr == some (.date d)) = 0 := by
      rw [List.countP_eq_length_filter, ← hms]
      rw [List.isEmpty_iff] at hE
      rw [hE]
      rfl
    rw [h0]
    rfl
  · rw [if_neg hE, List.length_map]
    have hlen : (mergeMatches r jl jr lr).length =
        r.rows.countP (fun rr => cellAt rr jr == some (.date d)) := by
      rw [hms, ← List.countP_eq_length_filter]
    have hpos : 0 < (mergeMatches r jl jr lr).length := by
      cases hL : mergeMatches r jl jr lr with
      | nil => rw [hL] at hE; simp at hE
      | cons a as => simp
    omega

theorem pg_block_count_ne {r : Table} {jl jr : ℕ} {lr : List (Option Val)} {d dd : ℕ}
    (hcell : cellAt lr jl = some (.date dd)) (hne : dd ≠ d) :
    (mergeBlock r jl jr lr).countP (fun ro => cellAt ro jl == some (.date d)) = 0 := by
  rw [List.countP_eq_zero]
  intro ro hro
  rw [pg_block_cell hcell hro]
  simp [hne]

theorem pg_mergeLeftPart_count {l r : Table} {jl jr : ℕ} {d : ℕ}
    (hdl : ∀ x ∈ l.rows, ∃ dd, cellAt x jl = some (.date dd)) :
    (mergeLeftPart l r jl jr).countP (fun ro => cellAt ro jl == some (.date d)) =
      l.rows.countP (fun x => cellAt x jl == some (.date d)) *
        max 1 (r.rows.countP (fun rr => cellAt rr jr == some (.date d))) := by
  rw [mergeLeftPart, pg_countP_flatten, List.map_map]
  have hpt : ∀ lr ∈ l.rows,
      ((fun bl => bl.countP (fun ro => cellAt ro jl == some (.date d))) ∘
        mergeBlock r jl jr) lr =
      (fun lr => if cellAt lr jl == some (.date d)
        then max 1 (r.rows.countP (fun rr => cellAt rr jr == some (.date d)))
        else 0) lr := by
    intro lr hlr
    obtain ⟨dd, hcell⟩ := hdl lr hlr
    show (mergeBlock r jl jr lr).countP (fun ro => cellAt ro jl == some (.date d)) =
      if cellAt lr jl == some (.date d)
      then max 1 (r.rows.countP (fun rr => cellAt rr jr == some (.date d))) else 0
    by_cases hdd : dd = d
    · subst hdd
      rw [pg_block_count_eq hcell, hcell]
      rw [if_pos (by simp)]
    · rw [pg_block_count_ne hcell hdd, hcell]
      rw [if_neg (by simp [hdd])]
  rw [List.map_congr_left hpt, pg_sum_if]

theorem pg_mergeRightOnly_cell {l : Table} {jl jr : ℕ} {rr : List (Option Val)}
    (hjl : jl < l.cols.length) :
    cellAt ((List.replicate l.cols.length none).set jl (cellAt rr jr)
      ++ rr.eraseIdx jr) jl = cellAt rr jr := by
  rw [cellAt, pg_getD_append_left
    (by rw [List.length_set, List.length_replicate]; exact hjl)]
  exact pg_getD_set_eq (by rw [List.length_replicate]; exact hjl)

theorem pg_mergeRightOnly_count_zero {l r : Table} {jl jr : ℕ} {d : ℕ}
    (hjl : jl < l.cols.length)
    (h : r.rows.countP (fun rr => cellAt rr jr == some (.date d)) = 0 ∨
      0 < l.rows.countP (fun lr => cellAt lr jl == some (.date d))) :
    (mergeRightOnly l r jl jr).countP
      (fun ro => cellAt ro jl == some (.date d)) = 0 := by
  rw [List.countP_eq_zero]
  intro ro hro
  rw [mergeRightOnly, List.mem_map] at hro
  obtain ⟨rr, hrf, rfl⟩ := hro
  show ¬(cellAt _ jl == some (Val.date d)) = true
  rw [pg_mergeRightOnly_cell hjl]
  intro hpred
  have hcd : cellAt rr jr = some (Val.date d) := by
    rwa [beq_iff_eq] at hpred
  rcases h with h0 | hpos
  · have := List.countP_eq_zero.mp h0 rr (List.mem_of_mem_filter hrf)
    rw [hcd] at this
    simp at this
  · have hmemf := List.mem_filter.mp hrf
    have hflag := hmemf.2
    rw [hcd] at hflag
    obtain ⟨lr, hlrm, hlrp⟩ := List.countP_pos_iff.mp hpos
    have hany : (l.rows.any fun lr => cellAt lr jl == some (Val.date d)) = true := by
      rw [List.any_eq_true]
      exact ⟨lr, hlrm, hlrp⟩
    rw [hany] at hflag
    simp at hflag

theorem pg_mergeLeftPart_content {l r : Table} {jl jr : ℕ} {d : ℕ}
    {lr ro : List (Option Val)}
    (hdl : ∀ x ∈ l.rows, ∃ dd, cellAt x jl = some (.date dd))
    (hlr : lr ∈ l.rows) (hlrd : cellAt lr jl = some (.date d))
    (hcount : l.rows.countP (fun x => cellAt x jl == some (.date d)) = 1)
    (hro : ro ∈ mergeLeftPart l r jl jr)
    (hrod : cellAt ro jl = some (.date d)) :
    ∃ X, ro = lr ++ X ∧
      ((r.rows.filter (fun rr => cellAt rr jr == some (.date d))) = [] →
        X = List.replicate (r.cols.eraseIdx jr).length none) := by
  rw [mergeLeftPart, List.mem_flatten] at hro
  obtain ⟨bl, hbl, hrbl⟩ := hro
  rw [List.mem_map] at hbl
  obtain ⟨lr2, hlr2, rfl⟩ := hbl
  obtain ⟨dd, hcell2⟩ := hdl lr2 hlr2
  have hro_cell : cellAt ro jl = some (.date dd) := pg_block_cell hcell2 hrbl
  have hdd : dd = d := by
    rw [hrod] at hro_cell
    cases hro_cell
    rfl
  subst hdd
  have hlr2eq : lr2 = lr := by
    by_contra hne
    have h2 : 2 ≤ (l.rows.filter (fun x => cellAt x jl == some (.date dd))).length := by
      refine pg_two_le_length_of_mem_ne (a := lr2) (b := lr) ?_ ?_ hne
      · exact List.mem_filter.mpr ⟨hlr2, by rw [hcell2]; simp⟩
      · exact List.mem_filter.mpr ⟨hlr, by rw [hlrd]; simp⟩
    rw [List.countP_eq_length_filter] at hcount
    omega
  subst hlr2eq
  obtain ⟨X, rfl⟩ := pg_block_prefix hrbl
  refine ⟨X, rfl, ?_⟩
  intro hfe
  have hE : (mergeMatches r jl jr lr2).isEmpty = true := by
    rw [pg_mergeMatches_eq hcell2, hfe]
    rfl
  rw [mergeBlock, if_pos hE] at hrbl
  have hx := List.mem_singleton.mp hrbl
  exact List.append_cancel_left hx

theorem pg_isDateCell_exists {c : Option Val} (h : isDateCell c = true) :
    ∃ d, c = some (.date d) := by
  cases c with
  | none => simp [isDateCell] at h
  | some v =>
    cases v with
    | num q => simp [isDateCell] at h
    | vstr s => simp [isDateCell] at h
    | date d => exact ⟨d, rfl⟩

/-- C3: the Dataset Assembler outer-joins the two tables on date: a date
carried by exactly one commodity row and no trend row yields exactly one
output row, with every trend-side column missing; a date carried by exactly
one commodity row and k trend rows yields exactly k output rows, each
repeating the commodity-side cells; and unmatched rows of either side are
retained, padded with missing cells on the other side. -/
theorem C3_dataset_assembler_outer_join (gc gt : Table) (jl jr : ℕ)
    (hjl : colIdx gc "Date" = some jl) (hjr : colIdx gt "Date" = some jr)
    (hdl0 : ∀ x ∈ gc.rows, isDateCell (cellAt x jl) = true)
    (hdr0 : ∀ x ∈ gt.rows, isDateCell (cellAt x jr) = true)
    (hwl : wf gc) :
    ∃ out, get_dataset_model gc gt = .ok out ∧
      (∀ d : ℕ, gc.rows.countP (fun x => cellAt x jl == some (.date d)) = 1 →
        gt.rows.countP (fun x => cellAt x jr == some (.date d)) = 0 →
        out.rows.countP (fun ro => cellAt ro jl == some (.date d)) = 1 ∧
        ∀ ro ∈ out.rows, cellAt ro jl = some (.date d) →
          ∀ jj, gc.cols.length ≤ jj → cellAt ro jj = none) ∧
      (∀ d k lr, lr ∈ gc.rows → cellAt lr jl = some (.date d) →
        gc.rows.countP (fun x => cellAt x jl == some (.date d)) = 1 →
        gt.rows.countP (fun x => cellAt x jr == some (.date d)) = k → 0 < k →
        out.rows.countP (fun ro => cellAt ro jl == some (.date d)) = k ∧
        ∀ ro ∈ out.rows, cellAt ro jl = some (.date d) →
          ∀ jj, jj < gc.cols.length → cellAt ro jj = cellAt lr jj) ∧
      (∀ lr ∈ gc.rows,
        gt.rows.countP (fun rr => cellAt rr jr == cellAt lr jl) = 0 →
        lr ++ List.replicate (gt.cols.eraseIdx jr).length none ∈ out.rows) ∧
      (∀ rr ∈ gt.rows,
        gc.rows.countP (fun lr => cellAt lr jl == cellAt rr jr) = 0 →
        (List.replicate gc.cols.length none).set jl (cellAt rr jr) ++ rr.eraseIdx jr
          ∈ out.rows) := by
  have hdl : ∀ x ∈ gc.rows, ∃ d, cellAt x jl = some (.date d) :=
    fun x hx => pg_isDateCell_exists (hdl0 x hx)
  have hdr : ∀ x ∈ gt.rows, ∃ d, cellAt x jr = some (.date d) :=
    fun x hx => pg_isDateCell_exists (hdr0 x hx)
  have hjl2 : jl < gc.cols.length := pg_colIdx_lt hjl
  have hgc : parseDateCol gc = .ok gc := pg_parseDateCol_id hjl hdl
  have hgt : parseDateCol gt = .ok gt := pg_parseDateCol_id hjr hdr
  have hred : get_dataset_model gc gt = mergeOuterOnDate gc gt := by
    rw [get_dataset_model, hgc, hgt]
  have hmerge : mergeOuterOnDate gc gt =
      .ok ⟨gc.cols ++ gt.cols.eraseIdx jr,
        sortByB (fun r1 r2 => cellKeyLeB (cellAt r1 jl) (cellAt r2 jl))
          (mergeLeftPart gc gt jl jr ++ mergeRightOnly gc gt jl jr)⟩ := by
    rw [mergeOuterOnDate, hjl, hjr]
  have hperm := pg_sortByB_perm
    (fun r1 r2 => cellKeyLeB (cellAt r1 jl) (cellAt r2 jl))
    (mergeLeftPart gc gt jl jr ++ mergeRightOnly gc gt jl jr)
  refine ⟨_, hred.trans hmerge, ?_, ?_, ?_, ?_⟩
  · intro d h1 h0
    constructor
    · show (sortByB _ _).countP _ = 1
      rw [hperm.countP_eq, List.countP_append]
      rw [pg_mergeLeftPart_count hdl, h1, h0,
        pg_mergeRightOnly_count_zero hjl2 (Or.inl h0)]
      omega
    · intro ro hro hrod jj hjj
      have hroR : ro ∈ mergeLeftPart gc gt jl jr ++ mergeRightOnly gc gt jl jr :=
        hperm.mem_iff.mp hro
      rcases List.mem_append.mp hroR with hroL | hroRo
      · obtain ⟨lr, hlrm, hlrp⟩ := List.countP_pos_iff.mp (h1 ▸ Nat.zero_lt_one)
        have hlrd : cellAt lr jl = some (.date d) := by rwa [beq_iff_eq] at hlrp
        obtain ⟨X, rfl, hXr⟩ := pg_mergeLeftPart_content hdl hlrm hlrd h1 hroL hrod
        have hfe : gt.rows.filter (fun rr => cellAt rr jr == some (.date d)) = [] := by
          rw [List.countP_eq_length_filter] at h0
          exact List.length_eq_zero.mp h0
        rw [hXr hfe, cellAt,
          pg_getD_append_right (by rw [hwl lr hlrm]; exact hjj)]
        exact pg_getD_replicate_none
      · exfalso
        have hz := pg_mergeRightOnly_count_zero (r := gt) hjl2 (Or.inl h0)
        have := List.countP_eq_zero.mp hz ro hroRo
        rw [hrod] at this
        simp at this
  · intro d k lr hlrm hlrd h1 hk hkpos
    constructor
    · show (sortByB _ _).countP _ = k
      rw [hperm.countP_eq, List.countP_append]
      rw [pg_mergeLeftPart_count hdl, h1, hk,
        pg_mergeRightOnly_count_zero hjl2 (Or.inr (h1 ▸ Nat.zero_lt_one))]
      omega
    · intro ro hro hrod jj hjj
      have hroR : ro ∈ mergeLeftPart gc gt jl jr ++ mergeRightOnly gc gt jl jr :=
        hperm.mem_iff.mp hro
      rcases List.mem_append.mp hroR with hroL | hroRo
      · obtain ⟨X, rfl, _⟩ := pg_mergeLeftPart_content hdl hlrm hlrd h1 hroL hrod
        rw [cellAt, cellAt, pg_getD_append_left (by rw [hwl lr hlrm]; exact hjj)]
      · exfalso
        have hz := @pg_mergeRightOnly_count_zero gc gt jl jr d hjl2
          (Or.inr (h1 ▸ Nat.zero_lt_one))
        have := List.countP_eq_zero.mp hz ro hroRo
        rw [hrod] at this
        simp at this
  · intro lr hlrm h0
    show _ ∈ (sortByB _ _)
    rw [hperm.mem_iff, List.mem_append]
    left
    rw [mergeLeftPart, List.mem_flatten]
    refine ⟨mergeBlock gt jl jr lr, List.mem_map_of_mem _ hlrm, ?_⟩
    obtain ⟨dl, hcell⟩ := hdl lr hlrm
    have hfe : mergeMatches gt jl jr lr = [] := by
      rw [mergeMatches, hcell]
      simp only [Option.isSome_some, if_true]
      rw [← hcell]
      rw [List.countP_eq_length_filter] at h0
      exact List.length_eq_zero.mp h0
    rw [mergeBlock, hfe]
    simp
  · intro rr hrrm h0
    show _ ∈ (sortByB _ _)
    rw [hperm.mem_iff, List.mem_append]
    right
    rw [mergeRightOnly]
    refine List.mem_map_of_mem _ ?_
    refine List.mem_filter.mpr ⟨hrrm, ?_⟩
    have hany : (gc.rows.any fun lr => cellAt lr jl == cellAt rr jr) = false := by
      by_contra hc
      rw [Bool.not_eq_false, List.any_eq_true] at hc
      obtain ⟨lr, hlrm, hlrp⟩ := hc
      have := List.countP_eq_zero.mp h0 lr hlrm
      exact this hlrp
    rw [hany, Bool.and_false]
    rfl

/-- C3 witness: a commodity table with dates 1 and 2 joined against a trend
table carrying three provinces on date 1: date 2 appears once, date 1 three
times in the assembled output. -/
theorem C3_dataset_assembler_outer_join_witness :
    ∃ out, get_dataset_model
        (⟨["Date", "Open"],
          [[some (.date 1), some (.num 10)], [some (.date 2), some (.num 11)]]⟩ : Table)
        (⟨["Date", "Province"],
          [[some (.date 1), some (.vstr "a")],
           [some (.date 1), some (.vstr "b")],
           [some (.date 1), some (.vstr "c")]]⟩ : Table) = .ok out ∧
      out.rows.countP (fun ro => cellAt ro 0 == some (.date 1)) = 3 ∧
      out.rows.countP (fun ro => cellAt ro 0 == some (.date 2)) = 1 := by
  obtain ⟨out, hok, hA, hB, _, _⟩ := C3_dataset_assembler_outer_join
    (⟨["Date", "Open"],
      [[some (.date 1), some (.num 10)], [some (.date 2), some (.num 11)]]⟩ : Table)
    (⟨["Date", "Province"],
      [[some (.date 1), some (.vstr "a")],
       [some (.date 1), some (.vstr "b")],
       [some (.date 1), some (.vstr "c")]]⟩ : Table)
    0 0 (by decide) (by decide) (by decide) (by decide) (by decide)
  refine ⟨out, hok, ?_, ?_⟩
  · exact (hB 1 3 [some (.date 1), some (.num 10)] (by decide) (by decide)
      (by decide) (by decide) (by decide)).1
  · exact (hA 2 (by decide) (by decide)).1

/-! ### Facts about the Google Trend loader -/

theorem pg_isSome_getD {o : Option ℕ} (h : o.isSome = true) : o = some (o.getD 0) := by
  cases o with
  | none => simp at h
  | some x => rfl

theorem pg_mapE_ok_of_forall {f : α → Except Unit β} :
    ∀ {l : List α}, (∀ a ∈ l, ∃ b, f a = .ok b) → ∃ l2, mapE f l = .ok l2 := by
  intro l
  induction l with
  | nil => intro _; exact ⟨[], rfl⟩
  | cons a as ih =>
    intro h
    obtain ⟨b, hb⟩ := h a (List.mem_cons_self _ _)
    obtain ⟨bs, hbs⟩ := ih (fun x hx => h x (List.mem_cons_of_mem _ hx))
    exact ⟨b :: bs, by rw [mapE, hb, hbs]⟩

theorem pg_parseDateColAt_id {t : Table} {j : ℕ}
    (hd : ∀ r ∈ t.rows, ∃ d, cellAt r j = some (.date d)) :
    parseDateColAt j t = .ok t := by
  rw [parseDateColAt]
  have hm : mapE (fun r => (toDatetimeCell (cellAt r j)).map (fun c => r.set j c))
      t.rows = .ok t.rows := by
    refine pg_mapE_id ?_
    intro r hr
    obtain ⟨d, hcell⟩ := hd r hr
    rw [hcell]
    rw [show toDatetimeCell (some (.date d)) = .ok (some (.date d)) from rfl]
    rw [show Except.map (fun c => r.set j c)
      (Except.ok (some (Val.date d))) = .ok (r.set j (some (.date d))) from rfl]
    rw [← hcell]
    rw [show cellAt r j = r.getD j none from rfl, pg_set_getD_self]
  rw [hm]
  rfl

theorem pg_eraseIdx_append_left :
    ∀ {l1 : List α} {i : ℕ} (l2 : List α), i < l1.length →
      (l1 ++ l2).eraseIdx i = l1.eraseIdx i ++ l2 := by
  intro l1
  induction l1 with
  | nil => intro i l2 h; simp at h
  | cons a as ih =>
    intro i l2 h
    cases i with
    | zero => simp [List.eraseIdx]
    | succ n =>
      rw [List.cons_append, List.eraseIdx, List.eraseIdx, List.cons_append]
      rw [ih l2 (by simpa using h)]

theorem pg_dedupFirst_sublist [DecidableEq α] :
    ∀ (l : List α), (dedupFirst l).Sublist l := by
  intro l
  induction l using dedupFirst.induct with
  | case1 => simp [dedupFirst]
  | case2 x xs ih =>
    rw [dedupFirst]
    exact (ih.trans (List.filter_sublist _)).cons₂ x

theorem pg_setColConst_fresh {t : Table} {c : String} {v : Option Val}
    (h : c ∉ t.cols) :
    setColConst t c v = ⟨t.cols ++ [c], t.rows.map (fun r => r ++ [v])⟩ := by
  rw [setColConst, colIdx, pg_findIdxA_not_mem h]

theorem pg_setColCopy_fresh {t : Table} {c : String} {src : ℕ}
    (h : c ∉ t.cols) :
    setColCopy t c src = ⟨t.cols ++ [c], t.rows.map (fun r => r ++ [cellAt r src])⟩ := by
  rw [setColCopy, colIdx, pg_findIdxA_not_mem h]

theorem pg_concatT_length {a b : Table} :
    (concatT a b).rows.length = a.rows.length + b.rows.length := by
  rw [concatT]
  simp

theorem pg_concatT_colIdx_left {a b : Table} {c0 : String} {j : ℕ}
    (h : colIdx a c0 = some j) : colIdx (concatT a b) c0 = some j := by
  rw [concatT, colIdx]
  exact pg_findIdxA_append_left _ h

theorem pg_reindex_cell {t : Table} {allCols : List String} {c0 : String}
    {j0 jAll : ℕ} {r : List (Option Val)}
    (ht : colIdx t c0 = some j0)
    (hname : allCols.getD jAll "" = c0) (hlt : jAll < allCols.length) :
    cellAt (reindexRowFor t allCols r) jAll = cellAt r j0 := by
  rw [reindexRowFor, cellAt, pg_getD_map "" hlt, hname, ht]

theorem pg_concatT_group {a b : Table} {c p : String}
    {jca jpa jcb jpb : ℕ}
    (hca : colIdx a "Commodity" = some jca) (hpa : colIdx a "Province" = some jpa)
    (hcb : colIdx b "Commodity" = some jcb) (hpb : colIdx b "Province" = some jpb) :
    groupCount (concatT a b) c p = groupCount a c p + groupCount b c p := by
  have hcc : colIdx (concatT a b) "Commodity" = some jca := pg_concatT_colIdx_left hca
  have hpc : colIdx (concatT a b) "Province" = some jpa := pg_concatT_colIdx_left hpa
  have hclto : jca < a.cols.length := pg_colIdx_lt hca
  have hplto : jpa < a.cols.length := pg_colIdx_lt hpa
  have hlen : a.cols.length ≤ (concatT a b).cols.length := by
    rw [concatT]
    simp only [List.length_append]
    omega
  have hcname : (concatT a b).cols.getD jca "" = "Commodity" := pg_colIdx_name hcc
  have hpname : (concatT a b).cols.getD jpa "" = "Province" := pg_colIdx_name hpc
  rw [groupCount, hcc, hpc, groupCount, hca, hpa, groupCount, hcb, hpb]
  show (a.rows.map (reindexRowFor a (concatT a b).cols) ++
      b.rows.map (reindexRowFor b (concatT a b).cols)).countP
      (fun r => cellAt r jca == some (Val.vstr c) &&
        (cellAt r jpa == some (Val.vstr p))) =
    a.rows.countP (fun r => cellAt r jca == some (Val.vstr c) &&
      (cellAt r jpa == some (Val.vstr p))) +
    b.rows.countP (fun r => cellAt r jcb == some (Val.vstr c) &&
      (cellAt r jpb == some (Val.vstr p)))
  rw [List.countP_append, List.countP_map, List.countP_map]
  refine congrArg₂ (· + ·) ?_ ?_
  · refine List.countP_congr ?_
    intro r _
    show ((cellAt (reindexRowFor a (concatT a b).cols r) jca == some (Val.vstr c)) &&
      (cellAt (reindexRowFor a (concatT a b).cols r) jpa == some (Val.vstr p))) = true ↔ _
    rw [pg_reindex_cell hca hcname (by omega), pg_reindex_cell hpa hpname (by omega)]
  · refine List.countP_congr ?_
    intro r _
    show ((cellAt (reindexRowFor b (concatT a b).cols r) jca == some (Val.vstr c)) &&
      (cellAt (reindexRowFor b (concatT a b).cols r) jpa == some (Val.vstr p))) = true ↔ _
    rw [pg_reindex_cell hcb hcname (by omega), pg_reindex_cell hpb hpname (by omega)]

theorem pg_fill_const_col {S E : ℕ} {t : Table} {jD q : ℕ} {v : Option Val}
    (hwf : wf t) (hjD : jD < t.cols.length) (hq : jD < q) (hqlt : q < t.cols.length)
    (hconst : ∀ r ∈ t.rows, cellAt r q = v) (hv : v.isSome = true)
    (hin : ∃ r ∈ t.rows, ∃ d, cellAt r jD = some (.date d) ∧ S ≤ d ∧ d ≤ E) :
    ∀ rr ∈ (bfillT (ffillT (leftMergeFullDates S E t jD))).rows, cellAt rr q = v := by
  have hrowlen : ∀ rr ∈ (leftMergeFullDates S E t jD).rows,
      rr.length = t.cols.length := pg_leftMerge_row_len hwf hjD
  have hqlen : ∀ rr ∈ (leftMergeFullDates S E t jD).rows, q < rr.length := by
    intro rr hrr
    rw [hrowlen rr hrr]
    exact hqlt
  have hbin : ∀ x ∈ colProj (leftMergeFullDates S E t jD).rows q,
      x = none ∨ x = v := by
    intro x hx
    rw [colProj, List.mem_map] at hx
    obtain ⟨rr, hrr, rfl⟩ := hx
    rw [pg_leftMerge_rows, List.mem_flatten] at hrr
    obtain ⟨bl, hbl, hrbl⟩ := hrr
    rw [List.mem_map] at hbl
    obtain ⟨d, _, rfl⟩ := hbl
    by_cases hE : (t.rows.filter (fun r => cellAt r jD == some (.date d))).isEmpty
    · rw [if_pos hE] at hrbl
      rcases List.mem_singleton.mp hrbl with rfl
      left
      obtain ⟨m, rfl⟩ : ∃ m, q = m + 1 := ⟨q - 1, by omega⟩
      rw [cellAt, List.getD_cons_succ]
      exact pg_getD_replicate_none
    · rw [if_neg hE] at hrbl
      rw [List.mem_map] at hrbl
      obtain ⟨r, hrf, rfl⟩ := hrbl
      right
      obtain ⟨m, rfl⟩ : ∃ m, q = m + 1 := ⟨q - 1, by omega⟩
      rw [cellAt, List.getD_cons_succ,
        show (r.eraseIdx jD).getD m none = r.getD (m + 1) none from
          pg_getD_eraseIdx_ge (by omega)]
      exact hconst r (List.mem_of_mem_filter hrf)
  have hany : ((colProj (leftMergeFullDates S E t jD).rows q).any
      fun x => x.isSome) = true := by
    obtain ⟨r0, hr0, d0, hc0, hS, hE2⟩ := hin
    have hjr : jD < r0.length := pg_lt_of_cellAt_some hc0
    have hdmem : d0 ∈ dateRange S E := by
      rw [dateRange, List.mem_range'_1]
      omega
    have hr0f : r0 ∈ t.rows.filter (fun r => cellAt r jD == some (.date d0)) :=
      List.mem_filter.mpr ⟨hr0, by rw [hc0]; simp⟩
    have hrow : (some (Val.date d0) :: r0.eraseIdx jD) ∈
        (leftMergeFullDates S E t jD).rows := by
      rw [pg_leftMerge_rows, List.mem_flatten]
      refine ⟨_, List.mem_map_of_mem _ hdmem, ?_⟩
      rw [if_neg ?_]
      · exact List.mem_map_of_mem _ hr0f
      · intro hemp
        rw [List.isEmpty_iff] at hemp
        rw [hemp] at hr0f
        simp at hr0f
    rw [List.any_eq_true]
    refine ⟨cellAt (some (Val.date d0) :: r0.eraseIdx jD) q,
      List.mem_map_of_mem _ hrow, ?_⟩
    obtain ⟨m, rfl⟩ : ∃ m, q = m + 1 := ⟨q - 1, by omega⟩
    rw [cellAt, List.getD_cons_succ,
      show (r0.eraseIdx jD).getD m none = r0.getD (m + 1) none from
        pg_getD_eraseIdx_ge (by omega)]
    rw [show r0.getD (m + 1) none = cellAt r0 (m + 1) from rfl, hconst r0 hr0]
    exact hv
  intro rr hrr
  have hcol : colProj (bfillT (ffillT (leftMergeFullDates S E t jD))).rows q =
      afterFB (colProj (leftMergeFullDates S E t jD).rows q) :=
    pg_colProj_afterFB hqlen
  have hx : cellAt rr q ∈
      colProj (bfillT (ffillT (leftMergeFullDates S E t jD))).rows q :=
    List.mem_map_of_mem _ hrr
  rw [hcol] at hx
  have hsome := pg_afterFB_all_some hany
  have hxs : (cellAt rr q).isSome = true := List.all_eq_true.mp hsome _ hx
  rcases pg_afterFB_mem hx with hxn | hxm
  · rw [hxn] at hxs
    simp at hxs
  · rcases hbin _ hxm with h1 | h1
    · rw [h1] at hxs
      simp at hxs
    · exact h1

theorem pg_cellAt_append_lt {l1 l2 : List (Option Val)} {j : ℕ}
    (h : j < l1.length) : cellAt (l1 ++ l2) j = cellAt l1 j := by
  rw [cellAt, cellAt, pg_getD_append_left h]

theorem pg_cellAt_append_self {l1 l2 : List (Option Val)} {v : Option Val} :
    cellAt (l1 ++ v :: l2) l1.length = v := by
  rw [cellAt, pg_getD_append_right (Nat.le_refl _), Nat.sub_self]
  rfl

theorem pg_rz_wf {t : Table} (hwf : wf t) : wf (replace_zeros_with_mean t) := by
  intro r hr
  have hr2 : r ∈ t.rows.map (fun r0 =>
      mapWithIdx (fun j v =>
        if numericCol t j && (v == some (.num 0))
        then Option.map Val.num (nonZeroMean t j)
        else v) 0 r0) := hr
  obtain ⟨r0, hr0, rfl⟩ := List.mem_map.mp hr2
  show (mapWithIdx _ 0 r0).length = t.cols.length
  rw [pg_mapWithIdx_length]
  exact hwf r0 hr0

theorem pg_trendTagged_eq {c p : String} {df : Table}
    (hC : "Commodity" ∉ df.cols) (hP : "Province" ∉ df.cols)
    (hG : "GTPrice" ∉ df.cols) :
    setColCopy
      (setColConst (setColConst df "Commodity" (some (.vstr c.toLower)))
        "Province" (some (.vstr (stemOf p).toLower))) "GTPrice" 1 =
    trendTagged c p df := by
  have hP1 : "Province" ∉ df.cols ++ ["Commodity"] := by
    intro hm
    rcases List.mem_append.mp hm with h | h
    · exact hP h
    · simp at h
  have hG1 : "GTPrice" ∉ (df.cols ++ ["Commodity"]) ++ ["Province"] := by
    intro hm
    rcases List.mem_append.mp hm with h | h
    · rcases List.mem_append.mp h with h2 | h2
      · exact hG h2
      · simp at h2
    · simp at h
  have e2 : setColConst (⟨df.cols ++ ["Commodity"],
        df.rows.map (fun r => r ++ [some (Val.vstr c.toLower)])⟩ : Table)
        "Province" (some (Val.vstr (stemOf p).toLower)) =
      ⟨(df.cols ++ ["Commodity"]) ++ ["Province"],
       (df.rows.map (fun r => r ++ [some (Val.vstr c.toLower)])).map
         (fun r => r ++ [some (Val.vstr (stemOf p).toLower)])⟩ :=
    pg_setColConst_fresh hP1
  have e3 : setColCopy (⟨(df.cols ++ ["Commodity"]) ++ ["Province"],
        (df.rows.map (fun r => r ++ [some (Val.vstr c.toLower)])).map
          (fun r => r ++ [some (Val.vstr (stemOf p).toLower)])⟩ : Table)
        "GTPrice" 1 =
      ⟨((df.cols ++ ["Commodity"]) ++ ["Province"]) ++ ["GTPrice"],
       ((df.rows.map (fun r => r ++ [some (Val.vstr c.toLower)])).map
         (fun r => r ++ [some (Val.vstr (stemOf p).toLower)])).map
         (fun r => r ++ [cellAt r 1])⟩ :=
    pg_setColCopy_fresh hG1
  rw [pg_setColConst_fresh hC, e2, e3, trendTagged, List.map_map, List.map_map]
  rfl

theorem pg_tpc_eq {c p : String} {df : Table}
    (hC : "Commodity" ∉ df.cols) (hP : "Province" ∉ df.cols)
    (hG : "GTPrice" ∉ df.cols) (hwf : wf df) :
    trendPreClean c p df =
      ⟨((df.cols ++ ["Commodity"]) ++ ["Province"]) ++ ["GTPrice"],
       dedupFirst ((replace_zeros_with_mean (trendTagged c p df)).rows.filter
         (fun r => r.all fun x => x.isSome))⟩ := by
  have hwfT : wf (trendTagged c p df) := by
    intro r hr
    have hr2 : r ∈ df.rows.map (fun r0 =>
        ((r0 ++ [some (.vstr c.toLower)]) ++
          [some (.vstr (stemOf p).toLower)]) ++
        [cellAt ((r0 ++ [some (.vstr c.toLower)]) ++
          [some (.vstr (stemOf p).toLower)]) 1]) := hr
    obtain ⟨r0, hr0, rfl⟩ := List.mem_map.mp hr2
    show _ = (((df.cols ++ ["Commodity"]) ++ ["Province"]) ++ ["GTPrice"]).length
    simp only [List.length_append, List.length_cons, List.length_nil]
    rw [hwf r0 hr0]
  rw [trendPreClean, pg_trendTagged_eq hC hP hG,
    pg_clean_data_eq (pg_rz_wf hwfT)]
  rfl

theorem pg_tpc_cols {c p : String} {df : Table}
    (hC : "Commodity" ∉ df.cols) (hP : "Province" ∉ df.cols)
    (hG : "GTPrice" ∉ df.cols) (hwf : wf df) :
    (trendPreClean c p df).cols =
      ((df.cols ++ ["Commodity"]) ++ ["Province"]) ++ ["GTPrice"] := by
  rw [pg_tpc_eq hC hP hG hwf]

theorem pg_tagRow_len {c p : String} {r : List (Option Val)} :
    (tagRow c p r).length = r.length + 3 := by
  rw [tagRow]
  simp only [List.length_append, List.length_cons, List.length_nil]

theorem pg_tagRow_date {c p : String} {r : List (Option Val)} {jD : ℕ}
    (hjr : jD < r.length) : cellAt (tagRow c p r) jD = cellAt r jD := by
  rw [tagRow,
    pg_cellAt_append_lt (by
      simp only [List.length_append, List.length_cons, List.length_nil]
      omega),
    pg_cellAt_append_lt (by
      simp only [List.length_append, List.length_cons, List.length_nil]
      omega),
    pg_cellAt_append_lt hjr]

theorem pg_tagRow_comm {c p : String} {r : List (Option Val)} :
    cellAt (tagRow c p r) r.length = some (.vstr c.toLower) := by
  rw [tagRow,
    pg_cellAt_append_lt (by
      simp only [List.length_append, List.length_cons, List.length_nil]
      omega),
    pg_cellAt_append_lt (by
      simp only [List.length_append, List.length_cons, List.length_nil]
      omega)]
  exact pg_cellAt_append_self

theorem pg_tagRow_prov {c p : String} {r : List (Option Val)} :
    cellAt (tagRow c p r) (r.length + 1) = some (.vstr (stemOf p).toLower) := by
  rw [tagRow,
    pg_cellAt_append_lt (by
      simp only [List.length_append, List.length_cons, List.length_nil]
      omega),
    show r.length + 1 = (r ++ [some (Val.vstr c.toLower)]).length from by
      simp only [List.length_append, List.length_cons, List.length_nil]]
  exact pg_cellAt_append_self

theorem pg_tpc_mem {c p : String} {df : Table} {jD : ℕ}
    (hC : "Commodity" ∉ df.cols) (hP : "Province" ∉ df.cols)
    (hG : "GTPrice" ∉ df.cols) (hwf : wf df) (hjD : jD < df.cols.length)
    (hdates : ∀ r ∈ df.rows,
      cellAt r jD = none ∨ isDateCell (cellAt r jD) = true) :
    ∀ r5 ∈ (trendPreClean c p df).rows,
      (r5.all fun x => x.isSome) = true ∧
      r5.length = df.cols.length + 3 ∧
      cellAt r5 df.cols.length = some (.vstr c.toLower) ∧
      cellAt r5 (df.cols.length + 1) = some (.vstr (stemOf p).toLower) ∧
      ∃ r ∈ df.rows, cellAt r5 jD = cellAt r jD := by
  intro r5 hr5
  rw [pg_tpc_eq hC hP hG hwf] at hr5
  have hr5' : r5 ∈ dedupFirst
      ((replace_zeros_with_mean (trendTagged c p df)).rows.filter
        (fun r => r.all fun x => x.isSome)) := hr5
  have hrf := (pg_mem_dedupFirst _ _).mp hr5'
  have hall : (r5.all fun x => x.isSome) = true := (List.mem_filter.mp hrf).2
  have hrz : r5 ∈ (replace_zeros_with_mean (trendTagged c p df)).rows :=
    (List.mem_filter.mp hrf).1
  have hrz2 : r5 ∈ (trendTagged c p df).rows.map (fun r0 =>
      mapWithIdx (fun j v =>
        if numericCol (trendTagged c p df) j && (v == some (.num 0))
        then Option.map Val.num (nonZeroMean (trendTagged c p df) j)
        else v) 0 r0) := hrz
  obtain ⟨r3, hr3, hr5eq0⟩ := List.mem_map.mp hrz2
  have hr5eq : mapWithIdx (fun j v =>
      if numericCol (trendTagged c p df) j && (v == some (.num 0))
      then Option.map Val.num (nonZeroMean (trendTagged c p df) j)
      else v) 0 r3 = r5 := hr5eq0
  have hr3' : r3 ∈ df.rows.map (tagRow c p) := hr3
  obtain ⟨r, hr, hreq⟩ := List.mem_map.mp hr3'
  have hrlen : r.length = df.cols.length := hwf r hr
  have hjr : jD < r.length := by
    rw [hrlen]
    exact hjD
  have hneD : cellAt r3 jD ≠ some (.num 0) := by
    rw [← hreq, pg_tagRow_date hjr]
    rcases hdates r hr with h | h
    · rw [h]
      simp
    · obtain ⟨d, hd⟩ := pg_isDateCell_exists h
      rw [hd]
      simp
  have hD : cellAt r5 jD = cellAt r jD := by
    rw [← hr5eq, pg_rz_cell hneD, ← hreq, pg_tagRow_date hjr]
  have hCm : cellAt r5 df.cols.length = some (.vstr c.toLower) := by
    rw [← hrlen, ← hr5eq,
      pg_rz_cell (by rw [← hreq, pg_tagRow_comm]; simp),
      ← hreq, pg_tagRow_comm]
  have hPm : cellAt r5 (df.cols.length + 1) =
      some (.vstr (stemOf p).toLower) := by
    rw [← hrlen, ← hr5eq,
      pg_rz_cell (by rw [← hreq, pg_tagRow_prov]; simp),
      ← hreq, pg_tagRow_prov]
  have hlen5 : r5.length = df.cols.length + 3 := by
    rw [← hr5eq, pg_mapWithIdx_length, ← hreq, pg_tagRow_len, hrlen]
  exact ⟨hall, hlen5, hCm, hPm, r, hr, hD⟩

theorem pg_tpc_wf {c p : String} {df : Table} {jD : ℕ}
    (hC : "Commodity" ∉ df.cols) (hP : "Province" ∉ df.cols)
    (hG : "GTPrice" ∉ df.cols) (hwf : wf df) (hjD : jD < df.cols.length)
    (hdates : ∀ r ∈ df.rows,
      cellAt r jD = none ∨ isDateCell (cellAt r jD) = true) :
    wf (trendPreClean c p df) := by
  intro r5 hr5
  obtain ⟨-, hlen, -, -, -⟩ := pg_tpc_mem hC hP hG hwf hjD hdates r5 hr5
  rw [hlen, pg_tpc_cols hC hP hG hwf]
  simp only [List.length_append, List.length_cons, List.length_nil]

theorem pg_tpc_dates {c p : String} {df : Table} {jD : ℕ}
    (hC : "Commodity" ∉ df.cols) (hP : "Province" ∉ df.cols)
    (hG : "GTPrice" ∉ df.cols) (hwf : wf df) (hjD : jD < df.cols.length)
    (hdates : ∀ r ∈ df.rows,
      cellAt r jD = none ∨ isDateCell (cellAt r jD) = true) :
    ∀ r5 ∈ (trendPreClean c p df).rows, ∃ d,
      cellAt r5 jD = some (.date d) := by
  intro r5 hr5
  obtain ⟨hall, hlen, -, -, r, hr, hD⟩ :=
    pg_tpc_mem hC hP hG hwf hjD hdates r5 hr5
  have hs : (cellAt r5 jD).isSome = true :=
    pg_row_all_isSome_getD hall (by rw [hlen]; omega)
  rcases hdates r hr with h | h
  · rw [hD, h] at hs
    simp at hs
  · obtain ⟨d, hd⟩ := pg_isDateCell_exists h
    exact ⟨d, by rw [hD, hd]⟩

theorem pg_tpc_colIdx_date {c p : String} {df : Table} {jD : ℕ}
    (hC : "Commodity" ∉ df.cols) (hP : "Province" ∉ df.cols)
    (hG : "GTPrice" ∉ df.cols) (hwf : wf df)
    (hDidx : colIdx df "Date" = some jD) :
    colIdx (trendPreClean c p df) "Date" = some jD := by
  have hf : findIdxA (fun x => x == "Date") df.cols = some jD := hDidx
  rw [colIdx, pg_tpc_cols hC hP hG hwf]
  exact pg_findIdxA_append_left _
    (pg_findIdxA_append_left _ (pg_findIdxA_append_left _ hf))

theorem pg_tpc_nodupDate {c p : String} {df : Table} {jD : ℕ}
    (hC : "Commodity" ∉ df.cols) (hP : "Province" ∉ df.cols)
    (hG : "GTPrice" ∉ df.cols) (hwf : wf df) (hjD : jD < df.cols.length)
    (hdates : ∀ r ∈ df.rows,
      cellAt r jD = none ∨ isDateCell (cellAt r jD) = true)
    (hnodupD : ((colProj df.rows jD).filterMap id).Nodup) :
    ((colProj (trendPreClean c p df).rows jD).filterMap id).Nodup := by
  rw [List.nodup_iff_count_le_one]
  intro v
  rw [← pg_countDate]
  have hsub : (trendPreClean c p df).rows.Sublist
      ((replace_zeros_with_mean (trendTagged c p df)).rows) := by
    rw [pg_tpc_eq hC hP hG hwf]
    exact (pg_dedupFirst_sublist _).trans (List.filter_sublist _)
  have hrows : (replace_zeros_with_mean (trendTagged c p df)).rows =
      df.rows.map (fun r =>
        mapWithIdx (fun j v =>
          if numericCol (trendTagged c p df) j && (v == some (.num 0))
          then Option.map Val.num (nonZeroMean (trendTagged c p df) j)
          else v) 0 (tagRow c p r)) := by
    show (df.rows.map (tagRow c p)).map _ = _
    rw [List.map_map]
    rfl
  have h2 : ((replace_zeros_with_mean (trendTagged c p df)).rows).countP
      (fun r => cellAt r jD == some v) =
      df.rows.countP (fun r => cellAt r jD == some v) := by
    rw [hrows, List.countP_map]
    refine List.countP_congr ?_
    intro r hr
    have hjr : jD < r.length := by
      rw [hwf r hr]
      exact hjD
    have hneD : cellAt (tagRow c p r) jD ≠ some (.num 0) := by
      rw [pg_tagRow_date hjr]
      rcases hdates r hr with h | h
      · rw [h]
        simp
      · obtain ⟨d, hd⟩ := pg_isDateCell_exists h
        rw [hd]
        simp
    simp only [Function.comp_apply]
    rw [pg_rz_cell hneD, pg_tagRow_date hjr]
  calc (trendPreClean c p df).rows.countP (fun r => cellAt r jD == some v)
      ≤ ((replace_zeros_with_mean (trendTagged c p df)).rows).countP
        (fun r => cellAt r jD == some v) :=
        hsub.countP_le _
    _ = df.rows.countP (fun r => cellAt r jD == some v) := h2
    _ = ((colProj df.rows jD).filterMap id).count v := pg_countDate _ _ _
    _ ≤ 1 := List.nodup_iff_count_le_one.mp hnodupD v

theorem pg_fb_rows_length {t : Table} :
    (bfillT (ffillT t)).rows.length = t.rows.length := by
  show ((ffillRows [] (ffillRows [] t.rows).reverse).reverse).length = _
  rw [List.length_reverse, pg_ffillRows_length, List.length_reverse,
    pg_ffillRows_length]

theorem pg_dateInRange_exists {S E : ℕ} {x : Option Val}
    (h : dateInRange S E x = true) :
    ∃ d, x = some (.date d) ∧ S ≤ d ∧ d ≤ E := by
  match x with
  | none => exact absurd h (by simp [dateInRange])
  | some (.num q) => exact absurd h (by simp [dateInRange])
  | some (.vstr s) => exact absurd h (by simp [dateInRange])
  | some (.date d) =>
    refine ⟨d, rfl, ?_⟩
    have h2 : (decide (S ≤ d) && decide (d ≤ E)) = true := h
    simp only [Bool.and_eq_true, decide_eq_true_eq] at h2
    exact h2

theorem pg_tpc_fmd {S E : ℕ} {c p : String} {df : Table} {jD : ℕ}
    (hC : "Commodity" ∉ df.cols) (hP : "Province" ∉ df.cols)
    (hG : "GTPrice" ∉ df.cols) (hwf : wf df)
    (hDidx : colIdx df "Date" = some jD)
    (hdates : ∀ r ∈ df.rows,
      cellAt r jD = none ∨ isDateCell (cellAt r jD) = true) :
    fill_missing_dates (trendPreClean c p df) S E =
      .ok (bfillT (ffillT (leftMergeFullDates S E (trendPreClean c p df) jD))) := by
  have hjD : jD < df.cols.length := pg_colIdx_lt hDidx
  have h1 : fill_missing_dates_call (trendPreClean c p df) S E =
      (match parseDateColAt jD (trendPreClean c p df) with
       | .error e => .error e
       | .ok dfP => .ok (bfillT (ffillT (leftMergeFullDates S E dfP jD)), dfP)) := by
    rw [fill_missing_dates_call, pg_tpc_colIdx_date hC hP hG hwf hDidx]
  have hpd : parseDateColAt jD (trendPreClean c p df) =
      .ok (trendPreClean c p df) :=
    pg_parseDateColAt_id (pg_tpc_dates hC hP hG hwf hjD hdates)
  rw [fill_missing_dates, h1, hpd]
  rfl

theorem pg_tn_len {S E : ℕ} {c p : String} {df : Table}
    (hC : "Commodity" ∉ df.cols) (hP : "Province" ∉ df.cols)
    (hG : "GTPrice" ∉ df.cols) (hwf : wf df)
    (hDidx : colIdx df "Date" = some (jDate df))
    (hdates : ∀ r ∈ df.rows,
      cellAt r (jDate df) = none ∨ isDateCell (cellAt r (jDate df)) = true)
    (hnodupD : ((colProj df.rows (jDate df)).filterMap id).Nodup) :
    (trendNormalized S E c p df).rows.length = dayCount S E := by
  have h := pg_fb_rows_length
    (t := leftMergeFullDates S E (trendPreClean c p df) (jDate df))
  rw [trendNormalized, h]
  exact pg_leftMerge_length
    (pg_tpc_nodupDate hC hP hG hwf (pg_colIdx_lt hDidx) hdates hnodupD)

theorem pg_tn_cols {S E : ℕ} {c p : String} {df : Table}
    (hC : "Commodity" ∉ df.cols) (hP : "Province" ∉ df.cols)
    (hG : "GTPrice" ∉ df.cols) (hwf : wf df)
    (hDidx : colIdx df "Date" = some (jDate df)) :
    (trendNormalized S E c p df).cols =
      "Date" :: (((df.cols.eraseIdx (jDate df) ++ ["Commodity"]) ++
        ["Province"]) ++ ["GTPrice"]) := by
  have hjD : jDate df < df.cols.length := pg_colIdx_lt hDidx
  show "Date" :: (trendPreClean c p df).cols.eraseIdx (jDate df) = _
  rw [pg_tpc_cols hC hP hG hwf,
    pg_eraseIdx_append_left _ (by
      simp only [List.length_append, List.length_cons, List.length_nil]
      omega),
    pg_eraseIdx_append_left _ (by
      simp only [List.length_append, List.length_cons, List.length_nil]
      omega),
    pg_eraseIdx_append_left _ hjD]

theorem pg_tn_tags {S E : ℕ} {c p : String} {df : Table}
    (hC : "Commodity" ∉ df.cols) (hP : "Province" ∉ df.cols)
    (hG : "GTPrice" ∉ df.cols) (hwf : wf df)
    (hDidx : colIdx df "Date" = some (jDate df))
    (hdates : ∀ r ∈ df.rows,
      cellAt r (jDate df) = none ∨ isDateCell (cellAt r (jDate df)) = true)
    (hin : ∃ r ∈ (trendPreClean c p df).rows,
      dateInRange S E (cellAt r (jDate df)) = true) :
    ∀ rr ∈ (trendNormalized S E c p df).rows,
      cellAt rr df.cols.length = some (.vstr c.toLower) ∧
      cellAt rr (df.cols.length + 1) = some (.vstr (stemOf p).toLower) := by
  have hjD : jDate df < df.cols.length := pg_colIdx_lt hDidx
  have hwf5 := pg_tpc_wf (c := c) (p := p) hC hP hG hwf hjD hdates
  have hcols5len : (trendPreClean c p df).cols.length = df.cols.length + 3 := by
    rw [pg_tpc_cols hC hP hG hwf]
    simp only [List.length_append, List.length_cons, List.length_nil]
  have hjD5 : jDate df < (trendPreClean c p df).cols.length := by
    rw [hcols5len]
    omega
  have hmem := pg_tpc_mem (c := c) (p := p) hC hP hG hwf hjD hdates
  have hinEx : ∃ r ∈ (trendPreClean c p df).rows, ∃ d,
      cellAt r (jDate df) = some (.date d) ∧ S ≤ d ∧ d ≤ E := by
    obtain ⟨r, hr, hd⟩ := hin
    obtain ⟨d, hcell, hS, hE⟩ := pg_dateInRange_exists hd
    exact ⟨r, hr, d, hcell, hS, hE⟩
  have hfC := pg_fill_const_col (q := df.cols.length)
    (v := some (Val.vstr c.toLower)) hwf5 hjD5 hjD
    (by rw [hcols5len]; omega)
    (fun r hr => (hmem r hr).2.2.1) rfl hinEx
  have hfP := pg_fill_const_col (q := df.cols.length + 1)
    (v := some (Val.vstr (stemOf p).toLower)) hwf5 hjD5 (by omega)
    (by rw [hcols5len]; omega)
    (fun r hr => (hmem r hr).2.2.2.1) rfl hinEx
  intro rr hrr
  exact ⟨hfC rr hrr, hfP rr hrr⟩

theorem pg_ptf_spec {S E : ℕ} {c p : String} {df : Table}
    (h2 : 2 ≤ df.cols.length) (hwf : wf df)
    (hC : "Commodity" ∉ df.cols) (hP : "Province" ∉ df.cols)
    (hG : "GTPrice" ∉ df.cols)
    (hDidx : colIdx df "Date" = some (jDate df))
    (hdates : ∀ r ∈ df.rows,
      cellAt r (jDate df) = none ∨ isDateCell (cellAt r (jDate df)) = true)
    (hnodupD : ((colProj df.rows (jDate df)).filterMap id).Nodup)
    (hin : ∃ r ∈ (trendPreClean c p df).rows,
      dateInRange S E (cellAt r (jDate df)) = true) :
    ∃ out, processTrendFile S E c p df = .ok out ∧
      out.rows.length = dayCount S E ∧
      (colIdx out "Commodity").isSome = true ∧
      (colIdx out "Province").isSome = true ∧
      ∀ c2 p2, groupCount out c2 p2 =
        if (c2, p2) = (c.toLower, (stemOf p).toLower)
        then dayCount S E else 0 := by
  have hjD : jDate df < df.cols.length := pg_colIdx_lt hDidx
  have hP1 : "Province" ∉ df.cols ++ ["Commodity"] := by
    intro hm
    rcases List.mem_append.mp hm with h | h
    · exact hP h
    · simp at h
  have hg1cols : (setColConst (setColConst df "Commodity"
        (some (.vstr c.toLower))) "Province"
        (some (.vstr (stemOf p).toLower))).cols =
      (df.cols ++ ["Commodity"]) ++ ["Province"] := by
    have e2 : setColConst (⟨df.cols ++ ["Commodity"],
          df.rows.map (fun r => r ++ [some (Val.vstr c.toLower)])⟩ : Table)
          "Province" (some (Val.vstr (stemOf p).toLower)) =
        ⟨(df.cols ++ ["Commodity"]) ++ ["Province"],
         (df.rows.map (fun r => r ++ [some (Val.vstr c.toLower)])).map
           (fun r => r ++ [some (Val.vstr (stemOf p).toLower)])⟩ :=
      pg_setColConst_fresh hP1
    rw [pg_setColConst_fresh hC, e2]
  have hguard1 : ¬ ((setColConst (setColConst df "Commodity"
        (some (.vstr c.toLower))) "Province"
        (some (.vstr (stemOf p).toLower))).cols.length < 2) := by
    rw [hg1cols]
    simp only [List.length_append, List.length_cons, List.length_nil]
    omega
  have hg2cols := pg_tn_cols (S := S) (E := E) (c := c) (p := p) hC hP hG hwf hDidx
  have hguard2 : ¬ ((trendNormalized S E c p df).cols.length < 2) := by
    rw [hg2cols]
    simp only [List.length_cons, List.length_append, List.length_nil]
    omega
  have heq : processTrendFile S E c p df =
      .ok (dropColAt (trendNormalized S E c p df) 1) := by
    have hm : processTrendFile S E c p df =
        (match fill_missing_dates (trendPreClean c p df) S E with
         | .error e => .error e
         | .ok d6 => if d6.cols.length < 2 then .error ()
                     else .ok (dropColAt d6 1)) := by
      rw [processTrendFile, if_neg hguard1]
    rw [hm, pg_tpc_fmd hC hP hG hwf hDidx hdates]
    show (if (trendNormalized S E c p df).cols.length < 2 then Except.error ()
          else Except.ok (dropColAt (trendNormalized S E c p df) 1)) =
      Except.ok (dropColAt (trendNormalized S E c p df) 1)
    rw [if_neg hguard2]
  have hlenout : (dropColAt (trendNormalized S E c p df) 1).rows.length =
      dayCount S E := by
    show ((trendNormalized S E c p df).rows.map (fun r => r.eraseIdx 1)).length = _
    rw [List.length_map]
    exact pg_tn_len hC hP hG hwf hDidx hdates hnodupD
  have hlenE : (df.cols.eraseIdx (jDate df)).length = df.cols.length - 1 := by
    rw [List.length_eraseIdx, if_pos hjD]
  have hcols_out : (dropColAt (trendNormalized S E c p df) 1).cols =
      ("Date" :: (df.cols.eraseIdx (jDate df)).eraseIdx 0) ++
        ["Commodity", "Province", "GTPrice"] := by
    show (trendNormalized S E c p df).cols.eraseIdx 1 = _
    rw [hg2cols]
    show "Date" :: ((((df.cols.eraseIdx (jDate df) ++ ["Commodity"]) ++
      ["Province"]) ++ ["GTPrice"]).eraseIdx 0) = _
    rw [pg_eraseIdx_append_left _ (by
        simp only [List.length_append, List.length_cons, List.length_nil]
        omega),
      pg_eraseIdx_append_left _ (by
        simp only [List.length_append, List.length_cons, List.length_nil]
        omega),
      pg_eraseIdx_append_left _ (by rw [hlenE]; omega)]
    simp only [List.cons_append, List.append_assoc, List.singleton_append,
      List.nil_append]
  have hE0len : ((df.cols.eraseIdx (jDate df)).eraseIdx 0).length =
      df.cols.length - 2 := by
    rw [List.length_eraseIdx, hlenE, if_pos (by omega)]
    omega
  have hE0sub : ((df.cols.eraseIdx (jDate df)).eraseIdx 0).Sublist df.cols :=
    (List.eraseIdx_sublist _ 0).trans (List.eraseIdx_sublist df.cols (jDate df))
  have hCnm : "Commodity" ∉
      ("Date" :: (df.cols.eraseIdx (jDate df)).eraseIdx 0) := by
    intro hm
    rcases List.mem_cons.mp hm with h | h
    · exact absurd h (by decide)
    · exact hC (hE0sub.subset h)
  have hPnm : "Province" ∉
      ("Date" :: (df.cols.eraseIdx (jDate df)).eraseIdx 0) ++ ["Commodity"] := by
    intro hm
    rcases List.mem_append.mp hm with h | h
    · rcases List.mem_cons.mp h with h1 | h1
      · exact absurd h1 (by decide)
      · exact hP (hE0sub.subset h1)
    · simp at h
  have hfC : findIdxA (fun x => x == "Commodity")
      ["Commodity", "Province", "GTPrice"] = some 0 := by
    with_unfolding_all decide
  have hfP : findIdxA (fun x => x == "Province")
      ["Province", "GTPrice"] = some 0 := by
    with_unfolding_all decide
  have hcolC : colIdx (dropColAt (trendNormalized S E c p df) 1) "Commodity" =
      some (df.cols.length - 1) := by
    rw [colIdx, hcols_out, pg_findIdxA_append_right hCnm hfC]
    refine congrArg some ?_
    simp only [List.length_cons]
    rw [hE0len]
    omega
  have hcols_out2 : (dropColAt (trendNormalized S E c p df) 1).cols =
      (("Date" :: (df.cols.eraseIdx (jDate df)).eraseIdx 0) ++ ["Commodity"]) ++
        ["Province", "GTPrice"] := by
    rw [hcols_out]
    simp only [List.cons_append, List.append_assoc, List.singleton_append,
      List.nil_append]
  have hcolP : colIdx (dropColAt (trendNormalized S E c p df) 1) "Province" =
      some df.cols.length := by
    rw [colIdx, hcols_out2, pg_findIdxA_append_right hPnm hfP]
    refine congrArg some ?_
    simp only [List.length_append, List.length_cons, List.length_nil]
    rw [hE0len]
    omega
  have htags := pg_tn_tags hC hP hG hwf hDidx hdates hin
  have houtcells : ∀ rr ∈ (dropColAt (trendNormalized S E c p df) 1).rows,
      cellAt rr (df.cols.length - 1) = some (.vstr c.toLower) ∧
      cellAt rr df.cols.length = some (.vstr (stemOf p).toLower) := by
    intro rr hrr
    have hrr2 : rr ∈ (trendNormalized S E c p df).rows.map
        (fun r => r.eraseIdx 1) := hrr
    obtain ⟨r6, hr6, hre⟩ := List.mem_map.mp hrr2
    obtain ⟨h6C, h6P⟩ := htags r6 hr6
    constructor
    · rw [← hre]
      show cellAt (r6.eraseIdx 1) (df.cols.length - 1) = _
      rw [cellAt, pg_getD_eraseIdx_ge (by omega : 1 ≤ df.cols.length - 1),
        show df.cols.length - 1 + 1 = df.cols.length from by omega]
      exact h6C
    · rw [← hre]
      show cellAt (r6.eraseIdx 1) df.cols.length = _
      rw [cellAt, pg_getD_eraseIdx_ge (by omega : 1 ≤ df.cols.length)]
      exact h6P
  refine ⟨dropColAt (trendNormalized S E c p df) 1, heq, hlenout, ?_, ?_, ?_⟩
  · rw [hcolC]
    rfl
  · rw [hcolP]
    rfl
  · intro c2 p2
    have hgc : groupCount (dropColAt (trendNormalized S E c p df) 1) c2 p2 =
        (dropColAt (trendNormalized S E c p df) 1).rows.countP
          (fun r => cellAt r (df.cols.length - 1) == some (.vstr c2) &&
            (cellAt r df.cols.length == some (.vstr p2))) := by
      rw [groupCount, hcolC, hcolP]
    rw [hgc]
    by_cases hcp : (c2, p2) = (c.toLower, (stemOf p).toLower)
    · rw [if_pos hcp]
      have hc2 : c2 = c.toLower := congrArg Prod.fst hcp
      have hp2 : p2 = (stemOf p).toLower := congrArg Prod.snd hcp
      subst hc2
      subst hp2
      have hallp : ∀ rr ∈ (dropColAt (trendNormalized S E c p df) 1).rows,
          (fun r => cellAt r (df.cols.length - 1) == some (.vstr c.toLower) &&
            (cellAt r df.cols.length ==
              some (.vstr (stemOf p).toLower))) rr = true := by
        intro rr hrr
        obtain ⟨h1, h2p⟩ := houtcells rr hrr
        show (cellAt rr (df.cols.length - 1) == some (Val.vstr c.toLower) &&
          (cellAt rr df.cols.length ==
            some (Val.vstr (stemOf p).toLower))) = true
        rw [h1, h2p]
        simp
      rw [List.countP_eq_length.mpr hallp]
      exact hlenout
    · rw [if_neg hcp]
      refine List.countP_eq_zero.mpr ?_
      intro rr hrr
      obtain ⟨h1, h2p⟩ := houtcells rr hrr
      show ¬ ((cellAt rr (df.cols.length - 1) == some (Val.vstr c2) &&
        (cellAt rr df.cols.length == some (Val.vstr p2))) = true)
      rw [h1, h2p]
      intro hcon
      simp only [Bool.and_eq_true, beq_iff_eq, Option.some.injEq,
        Val.vstr.injEq] at hcon
      obtain ⟨he1, he2⟩ := hcon
      subst he1
      subst he2
      exact hcp rfl

theorem pg_processTrendFile_spec {S E : ℕ} {f : String × String × Table}
    (hok : trendFileOK S E f) :
    ∃ out, processTrendFile S E f.1 f.2.1 f.2.2 = .ok out ∧
      out.rows.length = dayCount S E ∧
      (colIdx out "Commodity").isSome = true ∧
      (colIdx out "Province").isSome = true ∧
      ∀ c2 p2, groupCount out c2 p2 =
        if (c2, p2) = (f.1.toLower, (stemOf f.2.1).toLower)
        then dayCount S E else 0 := by
  obtain ⟨hnd, h2, hwf, hC, hP, hG, hDsome, hdates, hnodupD, hin⟩ := hok
  exact pg_ptf_spec h2 hwf hC hP hG
    (pg_isSome_getD hDsome : colIdx f.2.2 "Date" = some (jDate f.2.2))
    hdates hnodupD hin

theorem pg_sum_if_zero {β α : Type} [DecidableEq β] (g : α → β) (a : β)
    (n : ℕ) :
    ∀ l : List α, a ∉ l.map g →
      (l.map (fun y => if a = g y then n else 0)).sum = 0 := by
  intro l
  induction l with
  | nil => intro _; rfl
  | cons y ys ih =>
    intro hnm
    rw [List.map_cons] at hnm
    have hne : a ≠ g y := fun hc => hnm (hc ▸ List.mem_cons_self _ _)
    have hnm2 : a ∉ ys.map g := fun hc => hnm (List.mem_cons_of_mem _ hc)
    rw [List.map_cons, List.sum_cons, if_neg hne, ih hnm2]

theorem pg_sum_if_nodup_mem {β α : Type} [DecidableEq β] (g : α → β) (n : ℕ) :
    ∀ l : List α, (l.map g).Nodup → ∀ x ∈ l,
      (l.map (fun y => if g x = g y then n else 0)).sum = n := by
  intro l
  induction l with
  | nil => intro _ x hx; simp at hx
  | cons y ys ih =>
    intro hnd x hx
    rw [List.map_cons] at hnd
    obtain ⟨hny, hnd2⟩ := List.nodup_cons.mp hnd
    rw [List.map_cons, List.sum_cons]
    rcases List.mem_cons.mp hx with rfl | hx2
    · rw [if_pos rfl, pg_sum_if_zero g (g x) n ys hny]
      omega
    · have hne : g y ≠ g x := fun hc =>
        hny (hc ▸ List.mem_map_of_mem g hx2)
      rw [if_neg (fun hc => hne hc.symm), ih hnd2 x hx2]
      omega

theorem pg_gtLoop_spec {S E : ℕ} :
    ∀ (fs : List (String × String × Table)) (acc : Table),
      (∀ f ∈ fs, trendFileOK S E f) →
      (colIdx acc "Commodity").isSome = true →
      (colIdx acc "Province").isSome = true →
      ∃ out, gtLoop S E (some acc) fs = .ok (some out) ∧
        out.rows.length = acc.rows.length + fs.length * dayCount S E ∧
        (colIdx out "Commodity").isSome = true ∧
        (colIdx out "Province").isSome = true ∧
        ∀ c2 p2, groupCount out c2 p2 = groupCount acc c2 p2 +
          (fs.map (fun f =>
            if (c2, p2) = (f.1.toLower, (stemOf f.2.1).toLower)
            then dayCount S E else 0)).sum := by
  intro fs
  induction fs with
  | nil =>
    intro acc _ hc hp
    refine ⟨acc, rfl, by simp, hc, hp, ?_⟩
    intro c2 p2
    simp
  | cons f fs ih =>
    intro acc hok hc hp
    obtain ⟨d, hd, hdlen, hdc, hdp, hdg⟩ :=
      pg_processTrendFile_spec (hok f (List.mem_cons_self _ _))
    have hstep : gtLoop S E (some acc) (f :: fs) =
        gtLoop S E (some (concatT acc d)) fs := by
      rw [gtLoop, hd]
      rfl
    obtain ⟨jca, hjca⟩ : ∃ j, colIdx acc "Commodity" = some j := by
      cases hcc : colIdx acc "Commodity" with
      | none => rw [hcc] at hc; simp at hc
      | some j => exact ⟨j, rfl⟩
    obtain ⟨jpa, hjpa⟩ : ∃ j, colIdx acc "Province" = some j := by
      cases hcc : colIdx acc "Province" with
      | none => rw [hcc] at hp; simp at hp
      | some j => exact ⟨j, rfl⟩
    obtain ⟨jcd, hjcd⟩ : ∃ j, colIdx d "Commodity" = some j := by
      cases hcc : colIdx d "Commodity" with
      | none => rw [hcc] at hdc; simp at hdc
      | some j => exact ⟨j, rfl⟩
    obtain ⟨jpd, hjpd⟩ : ∃ j, colIdx d "Province" = some j := by
      cases hcc : colIdx d "Province" with
      | none => rw [hcc] at hdp; simp at hdp
      | some j => exact ⟨j, rfl⟩
    have hcC : (colIdx (concatT acc d) "Commodity").isSome = true := by
      rw [pg_concatT_colIdx_left hjca]
      rfl
    have hcP : (colIdx (concatT acc d) "Province").isSome = true := by
      rw [pg_concatT_colIdx_left hjpa]
      rfl
    obtain ⟨out, hout, hlen, hoc, hop, hog⟩ := ih (concatT acc d)
      (fun x hx => hok x (List.mem_cons_of_mem _ hx)) hcC hcP
    refine ⟨out, by rw [hstep]; exact hout, ?_, hoc, hop, ?_⟩
    · rw [hlen, pg_concatT_length, hdlen]
      simp only [List.length_cons]
      ring
    · intro c2 p2
      rw [hog c2 p2, pg_concatT_group hjca hjpa hjcd hjpd, hdg c2 p2]
      simp only [List.map_cons, List.sum_cons]
      omega

/-- C7 (amended): for a non-empty Google Trend listing whose files all
satisfy the per-file side conditions (rectangular, fresh tag labels, a Date
column with pairwise distinct parsed dates, and a surviving in-range row)
and whose lowercase (commodity, province-stem) tag pairs are pairwise
distinct, the loader succeeds and grouping its output by the
(Commodity, Province) tag pair recovers exactly one group per file, each of
size dayCount, and no other group; the total row count is N * dayCount.
(As frozen the claim is false: a file with duplicate dates yields a
per-file block, and hence a group, with more rows than the day count of the
range; see the counterexample.) -/
theorem C7_google_trend_amended (S E : ℕ)
    (files : List (String × String × Table))
    (hne : files ≠ [])
    (hok : ∀ f ∈ files, trendFileOK S E f)
    (hpairs : (files.map
      (fun f => (f.1.toLower, (stemOf f.2.1).toLower))).Nodup) :
    ∃ out, get_google_trend_data S E files = .ok (some out) ∧
      out.rows.length = files.length * dayCount S E ∧
      (∀ f ∈ files, groupCount out f.1.toLower (stemOf f.2.1).toLower =
        dayCount S E) ∧
      ∀ c2 p2, groupCount out c2 p2 ≠ 0 →
        (c2, p2) ∈ files.map
          (fun f => (f.1.toLower, (stemOf f.2.1).toLower)) := by
  cases files with
  | nil => exact absurd rfl hne
  | cons f0 fs =>
    obtain ⟨d0, hd0, hd0len, hd0c, hd0p, hd0g⟩ :=
      pg_processTrendFile_spec (hok f0 (List.mem_cons_self _ _))
    have hstep : get_google_trend_data S E (f0 :: fs) =
        gtLoop S E (some d0) fs := by
      rw [get_google_trend_data, gtLoop, hd0]
      rfl
    obtain ⟨out, hout, hlen, hoc, hop, hog⟩ := pg_gtLoop_spec fs d0
      (fun x hx => hok x (List.mem_cons_of_mem _ hx)) hd0c hd0p
    have hsum : ∀ c2 p2, groupCount out c2 p2 =
        ((f0 :: fs).map (fun f =>
          if (c2, p2) = (f.1.toLower, (stemOf f.2.1).toLower)
          then dayCount S E else 0)).sum := by
      intro c2 p2
      rw [hog c2 p2, hd0g c2 p2]
      simp only [List.map_cons, List.sum_cons]
    refine ⟨out, by rw [hstep]; exact hout, ?_, ?_, ?_⟩
    · rw [hlen, hd0len]
      simp only [List.length_cons]
      ring
    · intro f hf
      rw [hsum]
      exact pg_sum_if_nodup_mem
        (fun f => (f.1.toLower, (stemOf f.2.1).toLower)) (dayCount S E)
        (f0 :: fs) hpairs f hf
    · intro c2 p2 hne0
      by_contra hnm
      rw [hsum c2 p2] at hne0
      exact hne0 (pg_sum_if_zero
        (fun f => (f.1.toLower, (stemOf f.2.1).toLower)) (c2, p2)
        (dayCount S E) (f0 :: fs) hnm)

/-- C7 counterexample: a single file whose two rows carry the same date
yields, for the range [0, 1], an output whose one (commodity, province)
group has 3 rows, not the day count 2 of the range, because the left merge
duplicates the doubled day.  This refutes the frozen claim that every group
size equals the day count. -/
theorem C7_google_trend_counterexample :
    (get_google_trend_data 0 1 [("a", "p.csv",
        ⟨["Date", "v"],
         [[some (.date 0), some (.num 1)],
          [some (.date 0), some (.num 2)]]⟩)]).map
      (fun o => o.map (fun t => groupCount t "a" "p")) = .ok (some 3) ∧
    (get_google_trend_data 0 1 [("a", "p.csv",
        ⟨["Date", "v"],
         [[some (.date 0), some (.num 1)],
          [some (.date 0), some (.num 2)]]⟩)]).map
      (fun o => o.map (fun t => t.rows.length)) = .ok (some 3) ∧
    dayCount 0 1 = 2 := by
  with_unfolding_all decide

/-- Witness for C7 (amended): a concrete one-file listing satisfying every
hypothesis, with the conclusion instantiated there. -/
theorem C7_google_trend_amended_witness :
    (([("A", "p.csv", (⟨["Date", "v"],
        [[some (.date 0), some (.num 1)]]⟩ : Table))] ≠
        ([] : List (String × String × Table))) ∧
      (∀ f ∈ [("A", "p.csv", (⟨["Date", "v"],
        [[some (.date 0), some (.num 1)]]⟩ : Table))], trendFileOK 0 0 f) ∧
      (([("A", "p.csv", (⟨["Date", "v"],
        [[some (.date 0), some (.num 1)]]⟩ : Table))].map
          (fun f => (f.1.toLower, (stemOf f.2.1).toLower))).Nodup)) ∧
    (∃ out, get_google_trend_data 0 0 [("A", "p.csv", (⟨["Date", "v"],
        [[some (.date 0), some (.num 1)]]⟩ : Table))] = .ok (some out) ∧
      out.rows.length = [("A", "p.csv", (⟨["Date", "v"],
        [[some (.date 0), some (.num 1)]]⟩ : Table))].length * dayCount 0 0 ∧
      (∀ f ∈ [("A", "p.csv", (⟨["Date", "v"],
          [[some (.date 0), some (.num 1)]]⟩ : Table))],
        groupCount out f.1.toLower (stemOf f.2.1).toLower = dayCount 0 0) ∧
      ∀ c2 p2, groupCount out c2 p2 ≠ 0 →
        (c2, p2) ∈ [("A", "p.csv", (⟨["Date", "v"],
          [[some (.date 0), some (.num 1)]]⟩ : Table))].map
            (fun f => (f.1.toLower, (stemOf f.2.1).toLower))) :=
  ⟨⟨by decide, by with_unfolding_all decide, by with_unfolding_all decide⟩,
   C7_google_trend_amended 0 0 _ (by decide)
     (by with_unfolding_all decide) (by with_unfolding_all decide)⟩
